import Mathlib

/-!
Shallow embedding of the pyffi optimizer core, translated from:
  * src/niftools/PyFFI/NIF/bhkMoppBvTreeShape.py   (MOPP codec)
  * src/niftools/pyffi/PyFFI/Spells/NIF/optimize.py (inline unique-index mapper)
  * src/pyffi/spells/nif/optimize.py               (spells: merge duplicates,
    optimize geometry, optimize collision geometry, strip repair)

Machine bytes are modelled as `Nat` list entries; Python float arithmetic is
modelled over `ℚ` (exact arithmetic replacing IEEE floats); Python exceptions
are modelled with `Except`.
-/

/-! # MOPP codec (bhkMoppBvTreeShape.py) -/

/-- Errors raised by `parseMopp`, modelling the Python exceptions: an
unrecognized opcode raises `ValueError` carrying the offending offset and
opcode byte (after the diagnostic prints), and an out-of-bounds operand read
raises `IndexError`.  `fuelOut` is an artifact of the fuel-indexed recursion
and is unreachable from the `parseMopp` wrapper. -/
inductive MoppErr where
  | unknownOpcode (offset : Nat) (code : Nat)
  | indexError
  | fuelOut
deriving DecidableEq, Repr

/-- Outcome of interpreting one opcode of the MOPP instruction stream, directly
mirroring the `elif` chain of `parseMopp`: `cont` advances the cursor by `di`
and continues the while loop (possibly updating the triangle offset), `leaf`
reports a triangle and terminates (`ret = True`), `branch` splits into two
sub-decodes at relative displacements `dthen`/`delse` and terminates, `err`
raises. `ids` is the list of byte indices processed by the opcode. -/
inductive MoppStep where
  | cont (ids : List Nat) (di : Nat) (toffset2 : Nat)
  | leaf (ids : List Nat) (tri : Nat)
  | branch (ids : List Nat) (dthen delse : Nat)
  | err (e : MoppErr)
deriving Repr

/-- One iteration of `parseMopp`'s while-loop body: dispatch on the opcode at
index `i`, translated case by case from bhkMoppBvTreeShape.py lines 112-256. -/
def decodeInstr (mopp : List Nat) (i toffset code : Nat) : MoppStep :=
  if code = 0x09 then
    -- increment triangle offset (1-byte operand)
    match mopp[i+1]? with
    | some b => .cont [i, i+1] 2 (toffset + b)
    | none => .err .indexError
  else if code = 0x0A then
    -- increment triangle offset (2-byte operand)
    match mopp[i+1]?, mopp[i+2]? with
    | some b1, some b2 => .cont [i, i+1, i+2] 3 (toffset + b1 * 256 + b2)
    | _, _ => .err .indexError
  else if code = 0x0B then
    -- 3rd and 4th operand bytes set the triangle offset absolutely
    match mopp[i+1]?, mopp[i+2]?, mopp[i+3]?, mopp[i+4]? with
    | some _, some _, some b3, some b4 => .cont [i, i+1, i+2, i+3, i+4] 5 (256 * b3 + b4)
    | _, _, _, _ => .err .indexError
  else if 0x30 ≤ code ∧ code < 0x50 then
    -- triangle compact
    .leaf [i] (code - 0x30 + toffset)
  else if code = 0x50 then
    -- triangle byte
    match mopp[i+1]? with
    | some b => .leaf [i, i+1] (b + toffset)
    | none => .err .indexError
  else if code = 0x51 then
    -- triangle short
    match mopp[i+1]?, mopp[i+2]? with
    | some b1, some b2 => .leaf [i, i+1, i+2] (b1 * 256 + b2 + toffset)
    | _, _ => .err .indexError
  else if code = 0x53 then
    -- triangle short (trailing two operand bytes carry the index)
    match mopp[i+1]?, mopp[i+2]?, mopp[i+3]?, mopp[i+4]? with
    | some _, some _, some b3, some b4 => .leaf [i, i+1, i+2, i+3, i+4] (b3 * 256 + b4 + toffset)
    | _, _, _, _ => .err .indexError
  else if code = 0x05 then
    -- byte jump
    match mopp[i+1]? with
    | some b => .cont [i, i+1] (2 + b) toffset
    | none => .err .indexError
  else if code = 0x06 then
    -- short jump
    match mopp[i+1]?, mopp[i+2]? with
    | some b1, some b2 => .cont [i, i+1, i+2] (3 + b1 * 256 + b2) toffset
    | _, _ => .err .indexError
  else if code = 0x10 ∨ code = 0x11 ∨ code = 0x12 ∨ code = 0x13 ∨ code = 0x14 ∨
          code = 0x15 ∨ code = 0x16 ∨ code = 0x17 ∨ code = 0x18 ∨ code = 0x19 ∨
          code = 0x1A ∨ code = 0x1C then
    -- compact if-then-else with two arguments; then at i+4, else at i+4+mopp[i+3]
    match mopp[i+1]?, mopp[i+2]?, mopp[i+3]? with
    | some _, some _, some b3 => .branch [i, i+1, i+2, i+3] 4 (4 + b3)
    | _, _, _ => .err .indexError
  else if code = 0x20 ∨ code = 0x21 ∨ code = 0x22 then
    -- compact if-then-else with one argument; then at i+3, else at i+3+mopp[i+2]
    match mopp[i+1]?, mopp[i+2]? with
    | some _, some b2 => .branch [i, i+1, i+2] 3 (3 + b2)
    | _, _ => .err .indexError
  else if code = 0x23 ∨ code = 0x24 ∨ code = 0x25 then
    -- short if-then-else; both sides displaced by 2-byte jumps from i+7
    match mopp[i+1]?, mopp[i+2]?, mopp[i+3]?, mopp[i+4]?, mopp[i+5]?, mopp[i+6]? with
    | some _, some _, some b3, some b4, some b5, some b6 =>
        .branch [i, i+1, i+2, i+3, i+4, i+5, i+6] (7 + (b3 * 256 + b4)) (7 + (b5 * 256 + b6))
    | _, _, _, _, _, _ => .err .indexError
  else if code = 0x26 ∨ code = 0x27 ∨ code = 0x28 then
    -- bound X/Y/Z (2 operand bytes)
    match mopp[i+1]?, mopp[i+2]? with
    | some _, some _ => .cont [i, i+1, i+2] 3 toffset
    | _, _ => .err .indexError
  else if code = 0x01 ∨ code = 0x02 ∨ code = 0x03 ∨ code = 0x04 then
    -- bound XYZ? (3 operand bytes)
    match mopp[i+1]?, mopp[i+2]?, mopp[i+3]? with
    | some _, some _, some _ => .cont [i, i+1, i+2, i+3] 4 toffset
    | _, _, _ => .err .indexError
  else .err (.unknownOpcode i code)

/-- The set of opcode bytes `parseMopp` recognizes (every byte reaching the
final `else` of the dispatch raises `ValueError`). -/
def recognizedOpcode (code : Nat) : Bool :=
  code = 0x09 || code = 0x0A || code = 0x0B ||
  (0x30 ≤ code && code < 0x50) || code = 0x50 || code = 0x51 || code = 0x53 ||
  code = 0x05 || code = 0x06 ||
  code = 0x10 || code = 0x11 || code = 0x12 || code = 0x13 || code = 0x14 ||
  code = 0x15 || code = 0x16 || code = 0x17 || code = 0x18 || code = 0x19 ||
  code = 0x1A || code = 0x1C ||
  code = 0x20 || code = 0x21 || code = 0x22 ||
  code = 0x23 || code = 0x24 || code = 0x25 ||
  code = 0x26 || code = 0x27 || code = 0x28 ||
  code = 0x01 || code = 0x02 || code = 0x03 || code = 0x04

/-- Fuel-indexed recursion implementing `parseMopp`'s while loop plus its
recursive branch sub-decodes.  The loop runs while `i < moppDataSize` and no
terminal opcode has fired; each loop step strictly advances `i`, so the fuel
supplied by the `parseMopp` wrapper (the buffer length) is always sufficient
and `fuelOut` is unreachable from it.  Returns (ids of bytes processed,
triangle indices encountered), in the source's accumulation order. -/
def parseMoppF (mopp : List Nat) : Nat → Nat → Nat → Except MoppErr (List Nat × List Nat)
  | 0, i, _ =>
    match mopp[i]? with
    | none => .ok ([], [])
    | some _ => .error .fuelOut
  | fuel + 1, i, toffset =>
    match mopp[i]? with
    | none => .ok ([], [])
    | some code =>
      match decodeInstr mopp i toffset code with
      | .err e => .error e
      | .leaf ids t => .ok (ids, [t])
      | .cont ids di toffset2 =>
        match parseMoppF mopp fuel (i + di) toffset2 with
        | .error e => .error e
        | .ok (ids2, tris2) => .ok (ids ++ ids2, tris2)
      | .branch ids dthen delse =>
        match parseMoppF mopp fuel (i + dthen) toffset with
        | .error e => .error e
        | .ok (ids1, tris1) =>
          match parseMoppF mopp fuel (i + delse) toffset with
          | .error e => .error e
          | .ok (ids2, tris2) => .ok (ids ++ ids1 ++ ids2, tris1 ++ tris2)

/-- `parseMopp(start, toffset)` from bhkMoppBvTreeShape.py (the `verbose`
printing has no effect on the returned value and is not modelled). -/
def parseMopp (mopp : List Nat) (start toffset : Nat) : Except MoppErr (List Nat × List Nat) :=
  parseMoppF mopp mopp.length start toffset

/-- The trivial-tree loop of `updateMopp`: starting from compact-leaf byte
`0x30 + d`, emit `k` copies of `[TESTZ, maxz, 0, 1, leaf]`, inserting the
`[0x09, 0x20]` triangle-offset increment whenever the compact leaf range
(32 values) is exhausted, and finish with the final leaf byte. -/
def trivialChain (maxz : Nat) : Nat → Nat → List Nat
  | 0, d => [0x30 + d]
  | k + 1, d =>
    [0x12, maxz, 0, 1, 0x30 + d] ++
      (if d = 31 then [0x09, 0x20] ++ trivialChain maxz k 0
       else trivialChain maxz k (d + 1))

/-- The byte blob assembled by `updateMopp` for quantized bounds
`maxx`/`maxy`/`maxz` and `numtriangles` triangles: the three crude bounding
box checks `[BOUNDZ,0,maxz] [BOUNDY,0,maxy] [BOUNDX,0,maxx]` followed by the
trivial unbalanced tree. -/
def moppAssembly (maxx maxy maxz numtriangles : Nat) : List Nat :=
  [0x28, 0, maxz, 0x27, 0, maxy, 0x26, 0, maxx] ++ trivialChain maxz (numtriangles - 1) 0

/-! ## Quantization validation (`updateOriginScale` / `updateMopp` header) -/

/-- A 3d vector with exact-rational coordinates (modelling the float vectors
of the NIF geometry). -/
structure MVec where
  x : ℚ
  y : ℚ
  z : ℚ
deriving DecidableEq, Repr

/-- Fold of `max` over a list with explicit seed (Python `max([...])` over a
nonempty list, seeded with the first element). -/
def qmax (a : ℚ) (l : List ℚ) : ℚ := l.foldl max a

/-- Fold of `min` over a list with explicit seed (Python `min([...])` over a
nonempty list, seeded with the first element). -/
def qmin (a : ℚ) (l : List ℚ) : ℚ := l.foldl min a

/-- `updateOriginScale`: origin is the per-axis minimum minus 0.1, scale is
`256*256*254 / (0.2 + max extent)`.  The vertex list is `v :: vs` (Python
`min`/`max` require it nonempty). -/
def updateOriginScale (v : MVec) (vs : List MVec) : MVec × ℚ :=
  let minx := qmin v.x (vs.map (·.x))
  let miny := qmin v.y (vs.map (·.y))
  let minz := qmin v.z (vs.map (·.z))
  let maxx := qmax v.x (vs.map (·.x))
  let maxy := qmax v.y (vs.map (·.y))
  let maxz := qmax v.z (vs.map (·.z))
  (⟨minx - 1/10, miny - 1/10, minz - 1/10⟩,
   (256 * 256 * 254) / (1/5 + qmax (maxx - minx) [maxy - miny, maxz - minz]))

/-- The quantized per-axis maximum computed by `updateMopp` for one axis:
`math.ceil((max coordinate + 0.1 - origin) / q)` with `q = 256*256 / scale`. -/
def quantCoord (c origin scale : ℚ) : ℤ :=
  ⌈(c + 1/10 - origin) / (256 * 256 / scale)⌉

/-- The validation header of `updateMopp`: computes the quantized per-axis
maxima and raises `ValueError` when any is negative (invalid origin) or
exceeds 255 (invalid scale); on success returns the three maxima. -/
def updateMoppBounds (v : MVec) (vs : List MVec) (origin : MVec) (scale : ℚ) :
    Except String (ℤ × ℤ × ℤ) :=
  let maxx := quantCoord (qmax v.x (vs.map (·.x))) origin.x scale
  let maxy := quantCoord (qmax v.y (vs.map (·.y))) origin.y scale
  let maxz := quantCoord (qmax v.z (vs.map (·.z))) origin.z scale
  if maxx < 0 ∨ maxy < 0 ∨ maxz < 0 then
    .error "cannot update mopp tree with invalid origin"
  else if 255 < maxx ∨ 255 < maxy ∨ 255 < maxz then
    .error "cannot update mopp tree with invalid scale"
  else .ok (maxx, maxy, maxz)

/-! ## Well-formed MOPP instruction streams (for the no-throw half of the
decode-failure property).  `MoppProg` enumerates the recognized opcode forms;
`encodeMoppProg` lays them out into a byte buffer with displacements computed
so that each branch's else side starts right after its then side. -/

/-- Instruction streams built only from recognized opcode forms: a stream is a
run of non-terminal instructions (offset updates, jumps, bound setters) ending
in a terminal (a leaf or a branch over two sub-streams).  Jump constructors
carry the bytes they jump over. -/
inductive MoppProg where
  | leafCompact (v : Fin 32)
  | leafByte (b : Nat)
  | leafShort (b1 b2 : Nat)
  | leafShort2 (b1 b2 b3 b4 : Nat)
  | branch2 (c : Fin 12) (a b : Nat) (thn els : MoppProg)
  | branch1 (c : Fin 3) (a : Nat) (thn els : MoppProg)
  | branchShort (c : Fin 3) (a b : Nat) (thn els : MoppProg)
  | incr8 (b : Nat) (rest : MoppProg)
  | incr16 (b1 b2 : Nat) (rest : MoppProg)
  | setOffset (b1 b2 b3 b4 : Nat) (rest : MoppProg)
  | jump8 (filler : List Nat) (rest : MoppProg)
  | jump16 (filler : List Nat) (rest : MoppProg)
  | bound (c : Fin 3) (b1 b2 : Nat) (rest : MoppProg)
  | bound4 (c : Fin 4) (b1 b2 b3 : Nat) (rest : MoppProg)

/-- Opcode byte for the two-argument compact branch family
`[0x10..0x1A, 0x1C]` (0x1B is not a recognized opcode). -/
def branch2Code (c : Fin 12) : Nat :=
  if c.val < 11 then 0x10 + c.val else 0x1C

/-- Byte layout of a `MoppProg`. -/
def encodeMoppProg : MoppProg → List Nat
  | .leafCompact v => [0x30 + v.val]
  | .leafByte b => [0x50, b]
  | .leafShort b1 b2 => [0x51, b1, b2]
  | .leafShort2 b1 b2 b3 b4 => [0x53, b1, b2, b3, b4]
  | .branch2 c a b thn els =>
      [branch2Code c, a, b, (encodeMoppProg thn).length] ++
        encodeMoppProg thn ++ encodeMoppProg els
  | .branch1 c a thn els =>
      [0x20 + c.val, a, (encodeMoppProg thn).length] ++
        encodeMoppProg thn ++ encodeMoppProg els
  | .branchShort c a b thn els =>
      [0x23 + c.val, a, b, 0, 0,
       (encodeMoppProg thn).length / 256, (encodeMoppProg thn).length % 256] ++
        encodeMoppProg thn ++ encodeMoppProg els
  | .incr8 b rest => [0x09, b] ++ encodeMoppProg rest
  | .incr16 b1 b2 rest => [0x0A, b1, b2] ++ encodeMoppProg rest
  | .setOffset b1 b2 b3 b4 rest => [0x0B, b1, b2, b3, b4] ++ encodeMoppProg rest
  | .jump8 filler rest => [0x05, filler.length] ++ filler ++ encodeMoppProg rest
  | .jump16 filler rest =>
      [0x06, filler.length / 256, filler.length % 256] ++ filler ++ encodeMoppProg rest
  | .bound c b1 b2 rest => [0x26 + c.val, b1, b2] ++ encodeMoppProg rest
  | .bound4 c b1 b2 b3 rest => [0x01 + c.val, b1, b2, b3] ++ encodeMoppProg rest

/-- Number of parse steps a `MoppProg` takes (used as a fuel lower bound). -/
def moppProgSteps : MoppProg → Nat
  | .leafCompact _ => 1
  | .leafByte _ => 1
  | .leafShort _ _ => 1
  | .leafShort2 _ _ _ _ => 1
  | .branch2 _ _ _ thn els => 1 + moppProgSteps thn + moppProgSteps els
  | .branch1 _ _ thn els => 1 + moppProgSteps thn + moppProgSteps els
  | .branchShort _ _ _ thn els => 1 + moppProgSteps thn + moppProgSteps els
  | .incr8 _ rest => 1 + moppProgSteps rest
  | .incr16 _ _ rest => 1 + moppProgSteps rest
  | .setOffset _ _ _ _ rest => 1 + moppProgSteps rest
  | .jump8 _ rest => 1 + moppProgSteps rest
  | .jump16 _ rest => 1 + moppProgSteps rest
  | .bound _ _ _ rest => 1 + moppProgSteps rest
  | .bound4 _ _ _ _ rest => 1 + moppProgSteps rest

/-- Branch nesting depth of a `MoppProg` (for the depth ≥ 3 witness). -/
def moppProgDepth : MoppProg → Nat
  | .leafCompact _ => 0
  | .leafByte _ => 0
  | .leafShort _ _ => 0
  | .leafShort2 _ _ _ _ => 0
  | .branch2 _ _ _ thn els => 1 + max (moppProgDepth thn) (moppProgDepth els)
  | .branch1 _ _ thn els => 1 + max (moppProgDepth thn) (moppProgDepth els)
  | .branchShort _ _ _ thn els => 1 + max (moppProgDepth thn) (moppProgDepth els)
  | .incr8 _ rest => moppProgDepth rest
  | .incr16 _ _ rest => moppProgDepth rest
  | .setOffset _ _ _ _ rest => moppProgDepth rest
  | .jump8 _ rest => moppProgDepth rest
  | .jump16 _ rest => moppProgDepth rest
  | .bound _ _ _ rest => moppProgDepth rest
  | .bound4 _ _ _ _ rest => moppProgDepth rest

/-! # Unique-index mapper (optimizeTriBasedGeom, removing duplicate vertices) -/

/-- Lookup in the association-list model of the Python dict `k_map`. -/
def lookupKm {K : Type} [DecidableEq K] (km : List (K × Nat)) (h : K) : Option Nat :=
  (km.find? (fun kv => kv.1 = h)).map (·.2)

/-- One iteration of the duplicate-vertex scan: `v_map` maps old index to new
index, `v_map_inverse` maps new index to old index, `k_map` maps a hash to its
new vertex index, `index` (the next fresh new index) is `v_map_inverse.length`.
A known hash reuses its index, a new hash claims the next one. -/
def uniqueMapStep {K : Type} [DecidableEq K]
    (st : List Nat × List Nat × List (K × Nat)) (h : K) :
    List Nat × List Nat × List (K × Nat) :=
  let (vm, inv, km) := st
  match lookupKm km h with
  | some k => (vm ++ [k], inv, km)
  | none => (vm ++ [inv.length], inv ++ [vm.length], km ++ [(h, inv.length)])

/-- The duplicate-vertex scan of `optimizeTriBasedGeom` (and the
`unique_map` utility used by the newer spells): a single linear scan over the
vertex hashes producing `(v_map, v_map_inverse)`. -/
def uniqueMap {K : Type} [DecidableEq K] (hashes : List K) : List Nat × List Nat :=
  let (vm, inv, _) := hashes.foldl uniqueMapStep ([], [], [])
  (vm, inv)

/-- First-seen list of distinct keys of `l` (specification device used to
state the mapper's invariants). -/
def distinctList {K : Type} [DecidableEq K] (l : List K) : List K :=
  l.foldl (fun acc h => if h ∈ acc then acc else acc ++ [h]) []

/-- Number of distinct keys of `l` in first-seen order. -/
def numDistinct {K : Type} [DecidableEq K] (l : List K) : Nat :=
  (distinctList l).length

/-- Triangle re-pointing through `v_map` (`tri.v1 = v_map[tri.v1]` etc.);
an out-of-range index would raise `IndexError`, modelled by `none`. -/
def remapTriangles (v_map : List Nat) (tris : List (Nat × Nat × Nat)) :
    Option (List (Nat × Nat × Nat)) :=
  tris.mapM (fun t => do
    let a ← v_map[t.1]?
    let b ← v_map[t.2.1]?
    let c ← v_map[t.2.2]?
    pure (a, b, c))

/-! # SpellMergeDuplicates (src/pyffi/spells/nif/optimize.py) -/

/-- The block-level facts `SpellMergeDuplicates.branchentry` dispatches on:
Python object identity (`is not`) is modelled by a numeric id, and the
`isinstance` checks and `branch.controller` truthiness by flags. -/
structure MBlock where
  id : Nat
  isNiProperty : Bool
  isBSShaderProperty : Bool
  hasController : Bool
deriving DecidableEq, Repr

/-- Result of visiting a branch: replaced by an earlier interchangeable
branch (then the spell stops recursing into it), or kept (recursion
continues). -/
inductive MergeOutcome where
  | merged (survivor : MBlock)
  | kept
deriving DecidableEq, Repr

/-- The candidate scan of `branchentry`: find the first previously visited
branch that is a different object and interchangeable, skipping the candidate
entirely when it is a property with a controller or a BSShaderProperty
(`continue`). -/
def findMergeTarget (branch : MBlock) (interch : MBlock → MBlock → Bool) :
    List MBlock → Option MBlock
  | [] => none
  | other :: rest =>
    if branch.id ≠ other.id ∧ interch branch other then
      if branch.isNiProperty ∧ branch.hasController then
        findMergeTarget branch interch rest
      else if branch.isBSShaderProperty then
        findMergeTarget branch interch rest
      else some other
    else findMergeTarget branch interch rest

/-- `SpellMergeDuplicates.branchentry`: merge into the first admissible
earlier branch (calling `replace_global_node`), else record the branch as
visited. -/
def mergeBranchentry (branches : List MBlock) (branch : MBlock)
    (interch : MBlock → MBlock → Bool) : MergeOutcome × List MBlock :=
  match findMergeTarget branch interch branches with
  | some other => (.merged other, branches)
  | none => (.kept, branches ++ [branch])

/-- `SpellMergeDuplicates.datainspect`: refuse to run when the header reports
a `NiPSysMeshEmitter` block; when `has_block_type` raises `ValueError`
(modelled by `.error`), do the spell anyway. -/
def mergeDatainspect (hasEmitter : Except Unit Bool) : Bool :=
  match hasEmitter with
  | .ok b => !b
  | .error _ => true

/-- Modelled from the spec: the spell-driver semantics (§4.5) around the
in-source `datainspect`/`branchentry` callbacks — `should_run(document)` is
consulted once and, when false, no visit happens and the run is a recorded
no-op; otherwise blocks are visited in stable document order.  The driver
itself (pyffi.spells) is not under src/.  Returns (changed flag, list of
(removed block, survivor) merges performed). -/
def mergeDuplicatesRun (interch : MBlock → MBlock → Bool)
    (hasEmitter : Except Unit Bool) (doc : List MBlock) :
    Bool × List (MBlock × MBlock) :=
  if mergeDatainspect hasEmitter then
    let st := doc.foldl
      (fun (st : Bool × List (MBlock × MBlock) × List MBlock) b =>
        let (changed, merges, branches) := st
        match mergeBranchentry branches b interch with
        | (.merged other, br) => (true, merges ++ [(b, other)], br)
        | (.kept, br) => (changed, merges, br))
      (false, [], [])
    (st.1, st.2.1)
  else (false, [])

/-! # SpellOptimizeGeometry / SpellOptimizeCollisionGeometry control flow -/

/-- Action taken by a spell's `branchentry` on one block: keep recursing
(`return True`), stop without touching the document (`return False`), detach
the block (`replace_global_node(branch, None)`) and stop, or run the full
rewrite pipeline and stop.  `otherPath` stands for the remaining collision
cases (rigid-body handling) not involved in the degenerate-geometry claim. -/
inductive BranchAction where
  | recurse
  | stop
  | detachStop
  | optimizeStop
  | otherPath
deriving DecidableEq, Repr

/-- Control flow of `SpellOptimizeGeometry.branchentry` (lines 269-287): pass
through non-geometry, skip already-optimized blocks, detach degenerate
geometry (fewer than 3 vertices) without rewriting, otherwise rewrite. -/
def optGeometryBranchentry (isTriBasedGeom alreadyOptimized : Bool)
    (numVertices : Nat) : BranchAction :=
  if !isTriBasedGeom then .recurse
  else if alreadyOptimized then .stop
  else if numVertices < 3 then .detachStop
  else .optimizeStop

/-- Control flow of `SpellOptimizeCollisionGeometry.branchentry` (lines
874-893): skip already-optimized blocks; on a mopp-shape whose packed data has
fewer than 3 vertices, detach without rewriting; on other mopp-shapes run
`optimize_mopp`; the rigid-body cases are collapsed into `otherPath`. -/
def optCollisionBranchentry (alreadyOptimized isMoppPackedTriStrips isRigidBody : Bool)
    (numVertices : Nat) : BranchAction :=
  if alreadyOptimized then .stop
  else if isMoppPackedTriStrips then
    if numVertices < 3 then .detachStop else .optimizeStop
  else if isRigidBody then .otherPath
  else .recurse

/-! # Strip-index repair (SpellOptimizeGeometry.branchentry lines 340-353) -/

/-- In-place strip remap with repair: element `i` becomes `v_map[strip[i]]`;
on `IndexError` a warning is logged and the element is replaced by the
previous (already remapped) element, or by the raw next element when `i = 0`.
A single-element strip whose only index is bad makes the repair itself raise
`IndexError` (uncaught), modelled by `.error`.  The counter `k` is the number
of elements still to process (`strip.length` at the top call). -/
def remapStripAux (v_map : List Nat) : Nat → Nat → List Nat → Bool →
    Except Unit (List Nat × Bool)
  | 0, _, s, warned => .ok (s, warned)
  | k + 1, i, s, warned =>
    match s[i]? with
    | none => .ok (s, warned)
    | some old =>
      match v_map[old]? with
      | some v => remapStripAux v_map k (i + 1) (s.set i v) warned
      | none =>
        if 0 < i then
          match s[i-1]? with
          | some prev => remapStripAux v_map k (i + 1) (s.set i prev) true
          | none => .error ()
        else
          match s[i+1]? with
          | some nxt => remapStripAux v_map k (i + 1) (s.set i nxt) true
          | none => .error ()

/-- Remap one strip through `v_map`, repairing corrupt indices; returns the
remapped strip and whether a warning was raised. -/
def remapStrip (v_map strip : List Nat) : Except Unit (List Nat × Bool) :=
  remapStripAux v_map strip.length 0 strip false

/-- Per-element specification of the strip repair: an in-range index is
remapped through `v_map`; an out-of-range index is replaced by the previous
(already remapped) element, or, at position 0, by the raw next element of the
original strip. -/
def stripRepairProp (v_map strip res : List Nat) (j : Nat) : Prop :=
  match strip[j]? with
  | none => True
  | some old =>
    match v_map[old]? with
    | some v => res[j]? = some v
    | none =>
      (0 < j → res[j]? = res[j-1]?) ∧ (j = 0 → res[j]? = strip[j+1]?)

/-- Invariant of the duplicate-vertex scan after processing the prefix `p` of
the hash sequence, relating the accumulated `v_map`, `v_map_inverse` and
`k_map`. -/
structure UmInv {K : Type} [DecidableEq K] (p : List K) (vm inv : List Nat)
    (km : List (K × Nat)) : Prop where
  len_vm : vm.length = p.length
  len_inv : inv.length = numDistinct p
  inv_bound : ∀ j, (hj : j < inv.length) → inv[j] < vm.length
  inverse : ∀ j, (hj : j < inv.length) → vm[inv[j]]? = some j
  vm_lt : ∀ x ∈ vm, x < inv.length
  km_lookup : ∀ i, (hi : i < p.length) → lookupKm km p[i] = vm[i]?
  km_mem : ∀ h k, lookupKm km h = some k → h ∈ p
  first_occ : ∀ i, (hi : i < p.length) → p[i] ∉ p.take i →
    vm[i]? = some (numDistinct (p.take i))
  eq_hash : ∀ i j, (hi : i < p.length) → (hj : j < p.length) → p[i] = p[j] →
    vm[i]? = vm[j]?

/-! # Theorems -/

/-! ## Generic list-index helpers -/

theorem getElem?_append_len {α : Type} (pre l : List α) (j : Nat) :
    (pre ++ l)[pre.length + j]? = l[j]? := by
  rw [List.getElem?_append_right (by omega)]
  congr 1
  omega

theorem getElem?_append_len0 {α : Type} (pre l : List α) :
    (pre ++ l)[pre.length]? = l[0]? := by
  simpa using getElem?_append_len pre l 0

/-! ## C10: degenerate geometry is detached, not rewritten -/

/-- C10: for a tri-based-geometry block with fewer than 3 vertices that has
not been optimized yet, `SpellOptimizeGeometry.branchentry` detaches the
block (`replace_global_node(branch, None)`) without rewriting it and stops
recursing, and so does `SpellOptimizeCollisionGeometry.branchentry` on a
mopp shape over packed triangle data with fewer than 3 vertices. -/
theorem degenerate_geometry_detached (isRigidBody : Bool) (numVertices : Nat)
    (h : numVertices < 3) :
    optGeometryBranchentry true false numVertices = .detachStop ∧
    optCollisionBranchentry false true isRigidBody numVertices = .detachStop := by
  constructor <;> simp [optGeometryBranchentry, optCollisionBranchentry, h]

theorem degenerate_geometry_detached_witness :
    2 < 3 ∧ (optGeometryBranchentry true false 2 = .detachStop ∧
      optCollisionBranchentry false true false 2 = .detachStop) :=
  ⟨by decide, degenerate_geometry_detached false 2 (by decide)⟩

/-! ## C7: a mesh-particle-emitter disables branch merging document-wide -/

/-- C7: when the header reports a `NiPSysMeshEmitter` block,
`SpellMergeDuplicates.datainspect` returns false, so the whole run performs
no merge on any block and reports no change — a recorded no-op, not an
error. -/
theorem emitter_disables_merge (interch : MBlock → MBlock → Bool)
    (doc : List MBlock) (hasEmitter : Except Unit Bool)
    (h : hasEmitter = .ok true) :
    mergeDuplicatesRun interch hasEmitter doc = (false, []) := by
  subst h
  simp [mergeDuplicatesRun, mergeDatainspect]

theorem emitter_disables_merge_witness :
    (Except.ok true : Except Unit Bool) = .ok true ∧
    mergeDuplicatesRun (fun _ _ => true) (.ok true)
      [⟨0, false, false, false⟩, ⟨1, false, false, false⟩] = (false, []) :=
  ⟨rfl, emitter_disables_merge (fun _ _ => true) _ _ rfl⟩

/-! ## C6: controller exclusion in branch merging -/

/-- C6 counterexample: the controller skip in
`SpellMergeDuplicates.branchentry` only applies to `NiProperty` blocks, so a
non-property block carrying a controller is still merged into an earlier
interchangeable block, contradicting the claim that a block with an attached
controller is never merged. -/
theorem merge_controller_counterexample :
    (MBlock.mk 1 false false true).hasController = true ∧
    (MBlock.mk 1 false false true).isNiProperty = false ∧
    mergeBranchentry [⟨0, false, false, false⟩] ⟨1, false, false, true⟩
      (fun _ _ => true)
      = (.merged ⟨0, false, false, false⟩, [⟨0, false, false, false⟩]) := by
  refine ⟨rfl, rfl, ?_⟩
  rfl

/-- C6 (amended): a property block (`NiProperty`) carrying an attached
controller is never merged by `SpellMergeDuplicates.branchentry`, however
many structurally interchangeable earlier branches exist; it is kept and
recorded as visited. -/
theorem merge_property_with_controller_kept (branches : List MBlock)
    (branch : MBlock) (interch : MBlock → MBlock → Bool)
    (hprop : branch.isNiProperty = true) (hctrl : branch.hasController = true) :
    mergeBranchentry branches branch interch = (.kept, branches ++ [branch]) := by
  have hnone : findMergeTarget branch interch branches = none := by
    induction branches with
    | nil => rfl
    | cons other rest ih =>
      simp only [findMergeTarget, hprop, hctrl]
      split
      · simpa using ih
      · exact ih
  simp [mergeBranchentry, hnone]

theorem merge_property_with_controller_kept_witness :
    (MBlock.mk 1 true false true).isNiProperty = true ∧
    mergeBranchentry [⟨0, true, false, false⟩] ⟨1, true, false, true⟩
      (fun _ _ => true)
      = (.kept, [⟨0, true, false, false⟩, ⟨1, true, false, true⟩]) :=
  ⟨rfl, merge_property_with_controller_kept _ _ _ rfl rfl⟩

/-! ## C8: corrupt strip indices are repaired, not rejected -/

theorem remapStripAux_spec (v_map strip : List Nat) :
    ∀ (k i : Nat) (s : List Nat) (w : Bool) (res : List Nat) (warned : Bool),
    s.length = strip.length →
    strip.length ≤ i + k →
    (∀ j, i ≤ j → s[j]? = strip[j]?) →
    remapStripAux v_map k i s w = .ok (res, warned) →
    res.length = strip.length ∧
    (∀ j, j < i → res[j]? = s[j]?) ∧
    (∀ j, i ≤ j → stripRepairProp v_map strip res j) ∧
    (warned = true ↔
      (w = true ∨ ∃ j old, i ≤ j ∧ strip[j]? = some old ∧ v_map[old]? = none)) := by
  intro k
  induction k with
  | zero =>
    intro i s w res warned hlen hcover hsuf h
    simp only [remapStripAux] at h
    obtain ⟨rfl, rfl⟩ : s = res ∧ w = warned := by
      cases h
      exact ⟨rfl, rfl⟩
    refine ⟨hlen, fun j _ => rfl, fun j hj => ?_, ?_⟩
    · have : strip[j]? = none := List.getElem?_eq_none (by omega)
      simp [stripRepairProp, this]
    · constructor
      · exact fun hw => Or.inl hw
      · rintro (hw | ⟨j, old, hj, hb, _⟩)
        · exact hw
        · have hnone : strip[j]? = none := List.getElem?_eq_none (by omega)
          rw [hnone] at hb
          cases hb
  | succ k ih =>
    intro i s w res warned hlen hcover hsuf h
    simp only [remapStripAux] at h
    cases hsi : s[i]? with
    | none =>
      simp only [hsi] at h
      obtain ⟨rfl, rfl⟩ : s = res ∧ w = warned := by
        cases h
        exact ⟨rfl, rfl⟩
      have hout : strip.length ≤ i := by
        by_contra hc
        push_neg at hc
        have := hsuf i le_rfl
        rw [hsi, List.getElem?_eq_getElem (by omega : i < strip.length)] at this
        cases this
      refine ⟨hlen, fun j _ => rfl, fun j hj => ?_, ?_⟩
      · have : strip[j]? = none := List.getElem?_eq_none (by omega)
        simp [stripRepairProp, this]
      · constructor
        · exact fun hw => Or.inl hw
        · rintro (hw | ⟨j, old, hj, hb, _⟩)
          · exact hw
          · have hnone : strip[j]? = none := List.getElem?_eq_none (by omega)
            rw [hnone] at hb
            cases hb
    | some old =>
      simp only [hsi] at h
      have hstrip_i : strip[i]? = some old := by rw [← hsuf i le_rfl, hsi]
      have hilen : i < s.length := by
        by_contra hc
        push_neg at hc
        rw [List.getElem?_eq_none hc] at hsi
        cases hsi
      cases hvm : v_map[old]? with
      | some v =>
        simp only [hvm] at h
        obtain ⟨h1, h2, h3, h4⟩ := ih (i + 1) (s.set i v) w res warned
          (by simpa using hlen) (by omega)
          (fun j hj => by
            rw [List.getElem?_set_ne (by omega)]
            exact hsuf j (by omega)) h
        have hres_i : res[i]? = some v := by
          rw [h2 i (by omega), List.getElem?_set_self hilen]
        refine ⟨h1, fun j hj => ?_, fun j hj => ?_, ?_⟩
        · rw [h2 j (by omega), List.getElem?_set_ne (by omega)]
        · rcases Nat.lt_or_ge j (i + 1) with hj2 | hj2
          · have : j = i := by omega
            subst this
            simp only [stripRepairProp, hstrip_i, hvm]
            exact hres_i
          · exact h3 j hj2
        · constructor
          · intro hw
            rcases h4.mp hw with hw2 | ⟨j, old2, hj, hb1, hb2⟩
            · exact Or.inl hw2
            · exact Or.inr ⟨j, old2, by omega, hb1, hb2⟩
          · intro hr
            apply h4.mpr
            rcases hr with hw2 | ⟨j, old2, hj, hb1, hb2⟩
            · exact Or.inl hw2
            · rcases Nat.lt_or_ge j (i + 1) with hj2 | hj2
              · have : j = i := by omega
                subst this
                rw [hstrip_i] at hb1
                cases hb1
                rw [hvm] at hb2
                cases hb2
              · exact Or.inr ⟨j, old2, hj2, hb1, hb2⟩
      | none =>
        simp only [hvm] at h
        by_cases hi0 : 0 < i
        · rw [if_pos hi0] at h
          have hprevlt : i - 1 < s.length := by omega
          simp only [List.getElem?_eq_getElem hprevlt] at h
          obtain ⟨h1, h2, h3, h4⟩ := ih (i + 1) (s.set i (s[i-1])) true res warned
            (by simpa using hlen) (by omega)
            (fun j hj => by
              rw [List.getElem?_set_ne (by omega)]
              exact hsuf j (by omega)) h
          have hres_i : res[i]? = some (s[i-1]) := by
            rw [h2 i (by omega), List.getElem?_set_self hilen]
          have hres_pred : res[i-1]? = some (s[i-1]) := by
            rw [h2 (i-1) (by omega), List.getElem?_set_ne (by omega),
              List.getElem?_eq_getElem hprevlt]
          have hwtrue : warned = true := h4.mpr (Or.inl rfl)
          refine ⟨h1, fun j hj => ?_, fun j hj => ?_, ?_⟩
          · rw [h2 j (by omega), List.getElem?_set_ne (by omega)]
          · rcases Nat.lt_or_ge j (i + 1) with hj2 | hj2
            · have : j = i := by omega
              subst this
              simp only [stripRepairProp, hstrip_i, hvm]
              refine ⟨fun _ => ?_, fun hj0 => by omega⟩
              rw [hres_i, hres_pred]
            · exact h3 j hj2
          · constructor
            · intro _
              exact Or.inr ⟨i, old, le_rfl, hstrip_i, hvm⟩
            · intro _
              exact hwtrue
        · rw [if_neg hi0] at h
          have hi0' : i = 0 := by omega
          subst hi0'
          cases hnxt : s[1]? with
          | none =>
            simp only [hnxt] at h
            cases h
          | some nxt =>
            simp only [hnxt] at h
            obtain ⟨h1, h2, h3, h4⟩ := ih 1 (s.set 0 nxt) true res warned
              (by simpa using hlen) (by omega)
              (fun j hj => by
                rw [List.getElem?_set_ne (by omega)]
                exact hsuf j (by omega)) h
            have hres_0 : res[0]? = some nxt := by
              rw [h2 0 (by omega), List.getElem?_set_self hilen]
            have hwtrue : warned = true := h4.mpr (Or.inl rfl)
            refine ⟨h1, fun j hj => by omega, fun j hj => ?_, ?_⟩
            · rcases Nat.lt_or_ge j 1 with hj2 | hj2
              · have : j = 0 := by omega
                subst this
                simp only [stripRepairProp, hstrip_i, hvm]
                refine ⟨fun hc => by omega, fun _ => ?_⟩
                rw [hres_0, ← hsuf 1 (by omega), hnxt]
              · exact h3 j hj2
            · constructor
              · intro _
                exact Or.inr ⟨0, old, le_rfl, hstrip_i, hvm⟩
              · intro _
                exact hwtrue

/-- Once the scan has passed position 0, strip remapping always completes:
the only fallback that can fail is reading the next element at position 0
(for `i > 0` the previous element always exists). -/
theorem remapStripAux_ok_of_pos (v_map : List Nat) :
    ∀ (k i : Nat) (s : List Nat) (w : Bool), 0 < i →
    ∃ res warned, remapStripAux v_map k i s w = .ok (res, warned) := by
  intro k
  induction k with
  | zero =>
    intro i s w hi
    exact ⟨s, w, rfl⟩
  | succ k ih =>
    intro i s w hi
    simp only [remapStripAux]
    cases hsi : s[i]? with
    | none =>
      simp only [hsi]
      exact ⟨s, w, rfl⟩
    | some old =>
      simp only [hsi]
      cases hvm : v_map[old]? with
      | some v =>
        simp only [hvm]
        exact ih (i + 1) (s.set i v) w (by omega)
      | none =>
        simp only [hvm]
        rw [if_pos hi]
        have hilen : i < s.length := by
          by_contra hc
          push_neg at hc
          rw [List.getElem?_eq_none hc] at hsi
          cases hsi
        rw [List.getElem?_eq_getElem (show i - 1 < s.length by omega)]
        exact ih (i + 1) (s.set i _) true (by omega)

/-- C8 counterexample: for a single-element strip whose only index is out of
range, the repair path itself reads the non-existent next element, so the
source raises an uncaught `IndexError` — the file is rejected, not repaired
with a warning, contradicting the claim. -/
theorem strip_repair_counterexample :
    ([5] : List Nat).length ≤ ([9] : List Nat)[0] ∧
    remapStrip [5] [9] = Except.error () :=
  ⟨by decide, rfl⟩

/-- C8 (amended): strip remapping fails (uncaught `IndexError`, rejecting the
file) exactly when the strip has a single element and that index is out of
range for `old_to_new`; in every other case it completes, every in-range
strip index is remapped through `old_to_new` (`v_map`), every out-of-range
index is replaced by the previous (already remapped) element — or by the raw
next element for the first strip element — and a warning is raised exactly
when some index was out of range. -/
theorem strip_repair_amended (v_map strip : List Nat) :
    (remapStrip v_map strip = .error () ↔
      strip.length = 1 ∧ ∃ old, strip[0]? = some old ∧ v_map[old]? = none) ∧
    (∀ res warned, remapStrip v_map strip = .ok (res, warned) →
      res.length = strip.length ∧
      (∀ j, stripRepairProp v_map strip res j) ∧
      (warned = true ↔
        ∃ (j old : Nat), strip[j]? = some old ∧ v_map[old]? = none)) := by
  constructor
  · constructor
    · intro herr
      rcases Nat.lt_or_ge strip.length 2 with h2 | h2
      · rcases Nat.lt_or_ge strip.length 1 with h1 | h1
        · exfalso
          have h0 : strip.length = 0 := by omega
          unfold remapStrip at herr
          rw [h0] at herr
          simp only [remapStripAux] at herr
          cases herr
        · have h1e : strip.length = 1 := by omega
          refine ⟨h1e, ?_⟩
          obtain ⟨x, hx⟩ := List.length_eq_one.mp h1e
          subst hx
          cases hvm : v_map[x]? with
          | some v =>
            exfalso
            have hok : remapStrip v_map [x] = .ok ([v], false) := by
              unfold remapStrip
              simp [remapStripAux, hvm]
            rw [hok] at herr
            cases herr
          | none => exact ⟨x, rfl, hvm⟩
      · exfalso
        obtain ⟨kk, hkk⟩ : ∃ kk, strip.length = kk + 1 :=
          ⟨strip.length - 1, by omega⟩
        have hb0 : 0 < strip.length := by omega
        have hb1 : 1 < strip.length := by omega
        unfold remapStrip at herr
        rw [hkk] at herr
        simp only [remapStripAux, List.getElem?_eq_getElem hb0] at herr
        cases hvm : v_map[strip[0]]? with
        | some v =>
          simp only [hvm] at herr
          obtain ⟨res, warned, hok⟩ :=
            remapStripAux_ok_of_pos v_map kk 1 (strip.set 0 v) false
              (by omega)
          rw [show (0 : Nat) + 1 = 1 from rfl, hok] at herr
          cases herr
        | none =>
          simp only [hvm] at herr
          rw [if_neg (Nat.lt_irrefl 0)] at herr
          simp only [show (0 : Nat) + 1 = 1 from rfl,
            List.getElem?_eq_getElem hb1] at herr
          obtain ⟨res, warned, hok⟩ :=
            remapStripAux_ok_of_pos v_map kk 1 (strip.set 0 (strip[1]))
              true (by omega)
          rw [hok] at herr
          cases herr
    · rintro ⟨h1e, old, hsome, hnone⟩
      obtain ⟨x, hx⟩ := List.length_eq_one.mp h1e
      subst hx
      have hxo : x = old := by
        simpa using hsome
      subst hxo
      unfold remapStrip
      simp [remapStripAux, hnone]
  · intro res warned h
    obtain ⟨h1, _, h3, h4⟩ := remapStripAux_spec v_map strip strip.length 0
      strip false res warned rfl (by omega) (fun _ _ => rfl) h
    refine ⟨h1, fun j => h3 j (by omega), ?_⟩
    rw [h4]
    constructor
    · rintro (hc | ⟨j, old, _, hb1, hb2⟩)
      · cases hc
      · exact ⟨j, old, hb1, hb2⟩
    · rintro ⟨j, old, hb1, hb2⟩
      exact Or.inr ⟨j, old, by omega, hb1, hb2⟩

theorem strip_repair_amended_witness :
    remapStrip [5, 6] [0, 9, 1] = .ok ([5, 5, 6], true) ∧
    (([5, 5, 6] : List Nat).length = ([0, 9, 1] : List Nat).length ∧
     (∀ j, stripRepairProp [5, 6] [0, 9, 1] [5, 5, 6] j) ∧
     (true = true ↔ ∃ (j old : Nat), ([0, 9, 1] : List Nat)[j]? = some old ∧
        ([5, 6] : List Nat)[old]? = none)) :=
  ⟨rfl, (strip_repair_amended [5, 6] [0, 9, 1]).2 [5, 5, 6] true rfl⟩

/-! ## C2: soundness of the unique-index mapper -/

theorem getElem?_append_lt {α : Type} (l₁ l₂ : List α) {n : Nat}
    (h : n < l₁.length) : (l₁ ++ l₂)[n]? = l₁[n]? := by
  rw [List.getElem?_append, if_pos h]

theorem distinctList_append_singleton {K : Type} [DecidableEq K] (p : List K)
    (a : K) :
    distinctList (p ++ [a]) =
      if a ∈ distinctList p then distinctList p else distinctList p ++ [a] := by
  simp [distinctList, List.foldl_append]

theorem mem_distinctList {K : Type} [DecidableEq K] (p : List K) (a : K) :
    a ∈ distinctList p ↔ a ∈ p := by
  induction p using List.reverseRecOn with
  | nil => simp [distinctList]
  | append_singleton q b ih =>
    rw [distinctList_append_singleton]
    split
    · next hmem =>
      constructor
      · intro hx
        exact List.mem_append_left _ (ih.mp hx)
      · intro hx
        rcases List.mem_append.mp hx with hx | hx
        · exact ih.mpr hx
        · simp only [List.mem_singleton] at hx
          subst hx
          exact hmem
    · simp [List.mem_append, ih]

theorem numDistinct_append_singleton {K : Type} [DecidableEq K] (p : List K)
    (a : K) :
    numDistinct (p ++ [a]) =
      if a ∈ p then numDistinct p else numDistinct p + 1 := by
  rw [numDistinct, distinctList_append_singleton]
  by_cases hmem : a ∈ p
  · rw [if_pos ((mem_distinctList p a).mpr hmem), if_pos hmem]
    rfl
  · rw [if_neg (fun hc => hmem ((mem_distinctList p a).mp hc)), if_neg hmem]
    simp [numDistinct]

theorem lookupKm_append {K : Type} [DecidableEq K] (km km2 : List (K × Nat))
    (h : K) :
    lookupKm (km ++ km2) h = (lookupKm km h).or (lookupKm km2 h) := by
  unfold lookupKm
  rw [List.find?_append]
  cases List.find? (fun kv => kv.1 = h) km <;> simp [Option.or]

theorem lookupKm_singleton_self {K : Type} [DecidableEq K] (a : K) (m : Nat) :
    lookupKm [(a, m)] a = some m := by
  simp [lookupKm, List.find?]

theorem umInv_nil {K : Type} [DecidableEq K] :
    UmInv ([] : List K) [] [] [] := by
  constructor <;> simp [numDistinct, distinctList, lookupKm]

theorem umInv_step {K : Type} [DecidableEq K] {p : List K} {vm inv : List Nat}
    {km : List (K × Nat)} (a : K) (h : UmInv p vm inv km) :
    UmInv (p ++ [a]) (uniqueMapStep (vm, inv, km) a).1
      (uniqueMapStep (vm, inv, km) a).2.1 (uniqueMapStep (vm, inv, km) a).2.2 := by
  cases hka : lookupKm km a with
  | some k =>
    have hstep : uniqueMapStep (vm, inv, km) a = (vm ++ [k], inv, km) := by
      simp [uniqueMapStep, hka]
    rw [hstep]
    have hmem_a : a ∈ p := h.km_mem a k hka
    obtain ⟨i0, hi0, hpi0⟩ := List.mem_iff_getElem.mp hmem_a
    have hvm_i0 : vm[i0]? = some k := by
      rw [← h.km_lookup i0 hi0, hpi0, hka]
    have hk_mem : k ∈ vm := by
      obtain ⟨hb, heq⟩ := List.getElem?_eq_some_iff.mp hvm_i0
      rw [← heq]
      exact List.getElem_mem hb
    have hk_lt : k < inv.length := h.vm_lt k hk_mem
    have hvl : vm.length = p.length := h.len_vm
    constructor
    · simp [h.len_vm]
    · rw [numDistinct_append_singleton, if_pos hmem_a]
      exact h.len_inv
    · intro j hj
      have := h.inv_bound j hj
      simp only [List.length_append]
      omega
    · intro j hj
      rw [getElem?_append_lt vm [k] (h.inv_bound j hj)]
      exact h.inverse j hj
    · intro x hx
      rcases List.mem_append.mp hx with hx | hx
      · exact h.vm_lt x hx
      · simp only [List.mem_singleton] at hx
        subst hx
        exact hk_lt
    · intro i hi
      simp only [List.length_append, List.length_singleton] at hi
      rcases Nat.lt_or_ge i p.length with hlt | hge
      · rw [List.getElem_append_left hlt, getElem?_append_lt vm [k] (by omega)]
        exact h.km_lookup i hlt
      · have hi_eq : i = p.length := by omega
        subst hi_eq
        rw [List.getElem_concat_length p a p.length rfl]
        have : vm.length = p.length := h.len_vm
        rw [← this, List.getElem?_concat_length, hka]
    · intro h' k' hl
      exact List.mem_append_left _ (h.km_mem h' k' hl)
    · intro i hi hni
      simp only [List.length_append, List.length_singleton] at hi
      rcases Nat.lt_or_ge i p.length with hlt | hge
      · rw [List.getElem_append_left hlt,
          List.take_append_of_le_length (by omega)] at hni
        rw [getElem?_append_lt vm [k] (by omega),
          List.take_append_of_le_length (by omega)]
        exact h.first_occ i hlt hni
      · have hi_eq : i = p.length := by omega
        subst hi_eq
        rw [List.getElem_concat_length p a p.length rfl,
          List.take_append_of_le_length le_rfl, List.take_length] at hni
        exact absurd hmem_a hni
    · intro i j hi hj heq
      simp only [List.length_append, List.length_singleton] at hi hj
      rcases Nat.lt_or_ge i p.length with hlt1 | hge1 <;>
        rcases Nat.lt_or_ge j p.length with hlt2 | hge2
      · rw [List.getElem_append_left hlt1, List.getElem_append_left hlt2] at heq
        rw [getElem?_append_lt vm [k] (by omega),
          getElem?_append_lt vm [k] (by omega)]
        exact h.eq_hash i j hlt1 hlt2 heq
      · have hj_eq : j = p.length := by omega
        subst hj_eq
        rw [List.getElem_append_left hlt1,
          List.getElem_concat_length p a p.length rfl] at heq
        have hvm_i : vm[i]? = some k := by
          rw [← h.km_lookup i hlt1, heq, hka]
        rw [getElem?_append_lt vm [k] (by omega), hvm_i]
        have : vm.length = p.length := h.len_vm
        rw [← this, List.getElem?_concat_length]
      · have hi_eq : i = p.length := by omega
        subst hi_eq
        rw [List.getElem_concat_length p a p.length rfl,
          List.getElem_append_left hlt2] at heq
        have hvm_j : vm[j]? = some k := by
          rw [← h.km_lookup j hlt2, ← heq, hka]
        rw [← hvl, List.getElem?_concat_length,
          getElem?_append_lt vm [k] (by omega), hvm_j]
      · have hi_eq : i = p.length := by omega
        have hj_eq : j = p.length := by omega
        subst hi_eq
        rw [hj_eq]
  | none =>
    have hstep : uniqueMapStep (vm, inv, km) a =
        (vm ++ [inv.length], inv ++ [vm.length], km ++ [(a, inv.length)]) := by
      simp [uniqueMapStep, hka]
    rw [hstep]
    have hnotin : a ∉ p := by
      intro hmem
      obtain ⟨i0, hi0, hpi0⟩ := List.mem_iff_getElem.mp hmem
      have := h.km_lookup i0 hi0
      rw [hpi0, hka] at this
      have hb : i0 < vm.length := by rw [h.len_vm]; exact hi0
      rw [List.getElem?_eq_getElem hb] at this
      cases this
    have hnotin_d : a ∉ distinctList p := fun hc =>
      hnotin ((mem_distinctList p a).mp hc)
    have hvl : vm.length = p.length := h.len_vm
    constructor
    · simp [h.len_vm]
    · rw [numDistinct_append_singleton, if_neg hnotin]
      simp [h.len_inv]
    · intro j hj
      simp only [List.length_append, List.length_singleton] at hj ⊢
      rcases Nat.lt_or_ge j inv.length with hlt | hge
      · rw [List.getElem_append_left hlt]
        have := h.inv_bound j hlt
        omega
      · have hj_eq : j = inv.length := by omega
        subst hj_eq
        rw [List.getElem_concat_length inv vm.length inv.length rfl]
        omega
    · intro j hj
      simp only [List.length_append, List.length_singleton] at hj
      rcases Nat.lt_or_ge j inv.length with hlt | hge
      · rw [List.getElem_append_left hlt,
          getElem?_append_lt vm [inv.length] (h.inv_bound j hlt)]
        exact h.inverse j hlt
      · have hj_eq : j = inv.length := by omega
        subst hj_eq
        rw [List.getElem_concat_length inv vm.length inv.length rfl,
          List.getElem?_concat_length]
    · intro x hx
      simp only [List.length_append, List.length_singleton]
      rcases List.mem_append.mp hx with hx | hx
      · have := h.vm_lt x hx
        omega
      · simp only [List.mem_singleton] at hx
        subst hx
        omega
    · intro i hi
      simp only [List.length_append, List.length_singleton] at hi
      rw [lookupKm_append]
      rcases Nat.lt_or_ge i p.length with hlt | hge
      · rw [List.getElem_append_left hlt]
        have hib : i < vm.length := by omega
        have hsome : vm[i]? = some (vm.get ⟨i, hib⟩) :=
          List.getElem?_eq_getElem hib
        rw [getElem?_append_lt vm [inv.length] hib,
          h.km_lookup i hlt, hsome, Option.or]
      · have hi_eq : i = p.length := by omega
        subst hi_eq
        rw [List.getElem_concat_length p a p.length rfl, hka,
          lookupKm_singleton_self, Option.or]
        have : vm.length = p.length := h.len_vm
        rw [← this, List.getElem?_concat_length]
    · intro h' k' hl
      rw [lookupKm_append] at hl
      cases hkm : lookupKm km h' with
      | some k2 =>
        exact List.mem_append_left _ (h.km_mem h' k2 hkm)
      | none =>
        rw [hkm, Option.or] at hl
        have : h' = a := by
          by_contra hne
          have hne2 : ¬(a = h') := fun hc => hne hc.symm
          have : lookupKm [(a, inv.length)] h' = none := by
            simp [lookupKm, List.find?, hne2]
          rw [this] at hl
          cases hl
        subst this
        exact List.mem_append_right _ (List.mem_singleton.mpr rfl)
    · intro i hi hni
      simp only [List.length_append, List.length_singleton] at hi
      rcases Nat.lt_or_ge i p.length with hlt | hge
      · rw [List.getElem_append_left hlt,
          List.take_append_of_le_length (by omega)] at hni
        rw [getElem?_append_lt vm [inv.length] (by rw [h.len_vm]; exact hlt),
          List.take_append_of_le_length (by omega)]
        exact h.first_occ i hlt hni
      · have hi_eq : i = p.length := by omega
        subst hi_eq
        have hvm : vm.length = p.length := h.len_vm
        rw [← hvm, List.getElem?_concat_length,
          List.take_append_of_le_length (by omega), hvm, List.take_length]
        rw [← h.len_inv]
    · intro i j hi hj heq
      simp only [List.length_append, List.length_singleton] at hi hj
      rcases Nat.lt_or_ge i p.length with hlt1 | hge1 <;>
        rcases Nat.lt_or_ge j p.length with hlt2 | hge2
      · rw [List.getElem_append_left hlt1, List.getElem_append_left hlt2] at heq
        rw [getElem?_append_lt vm [inv.length] (by rw [h.len_vm]; exact hlt1),
          getElem?_append_lt vm [inv.length] (by rw [h.len_vm]; exact hlt2)]
        exact h.eq_hash i j hlt1 hlt2 heq
      · have hj_eq : j = p.length := by omega
        subst hj_eq
        rw [List.getElem_append_left hlt1,
          List.getElem_concat_length p a p.length rfl] at heq
        exact absurd (heq ▸ List.getElem_mem hlt1) hnotin
      · have hi_eq : i = p.length := by omega
        subst hi_eq
        rw [List.getElem_concat_length p a p.length rfl,
          List.getElem_append_left hlt2] at heq
        exact absurd (heq ▸ List.getElem_mem hlt2) hnotin
      · have hi_eq : i = p.length := by omega
        have hj_eq : j = p.length := by omega
        subst hi_eq
        rw [hj_eq]

theorem uniqueMap_inv {K : Type} [DecidableEq K] (hashes : List K) :
    UmInv hashes (hashes.foldl uniqueMapStep ([], [], [])).1
      (hashes.foldl uniqueMapStep ([], [], [])).2.1
      (hashes.foldl uniqueMapStep ([], [], [])).2.2 := by
  induction hashes using List.reverseRecOn with
  | nil => exact umInv_nil
  | append_singleton p a ih =>
    rw [List.foldl_append]
    simp only [List.foldl_cons, List.foldl_nil]
    exact umInv_step a ih

/-- C2: the map-building scan of `optimizeTriBasedGeom` is sound: `old_to_new`
(`v_map`) covers every old index and only hits new indices below
`len(new_to_representative_old)`; `old_to_new[new_to_representative_old[j]] = j`
for every `j` (so `old_to_new` is surjective onto that range); the first
occurrence of each distinct hash claims the next new index in first-seen order
(its new index is the number of distinct hashes seen before it); and every
later occurrence of an equal hash maps to that same new index. -/
theorem uniqueMap_sound {K : Type} [DecidableEq K] (hashes : List K) :
    (uniqueMap hashes).1.length = hashes.length ∧
    (∀ x ∈ (uniqueMap hashes).1, x < (uniqueMap hashes).2.length) ∧
    (∀ j, (hj : j < (uniqueMap hashes).2.length) →
      (uniqueMap hashes).2[j] < hashes.length ∧
      (uniqueMap hashes).1[(uniqueMap hashes).2[j]]? = some j) ∧
    (∀ i, (hi : i < hashes.length) → hashes[i] ∉ hashes.take i →
      (uniqueMap hashes).1[i]? = some (numDistinct (hashes.take i))) ∧
    (∀ i j, (hi : i < hashes.length) → (hj : j < hashes.length) →
      hashes[i] = hashes[j] →
      (uniqueMap hashes).1[i]? = (uniqueMap hashes).1[j]?) := by
  have hinv := uniqueMap_inv hashes
  have h1 : (uniqueMap hashes).1 = (hashes.foldl uniqueMapStep ([], [], [])).1 := rfl
  have h2 : (uniqueMap hashes).2 =
      (hashes.foldl uniqueMapStep ([], [], [])).2.1 := rfl
  rw [h1, h2]
  refine ⟨hinv.len_vm, hinv.vm_lt, fun j hj => ⟨?_, hinv.inverse j hj⟩,
    hinv.first_occ, hinv.eq_hash⟩
  have := hinv.inv_bound j hj
  rw [hinv.len_vm] at this
  exact this

theorem uniqueMap_sound_witness :
    ([5, 7, 5, 9] : List Nat)[0] = ([5, 7, 5, 9] : List Nat)[2] ∧
    (uniqueMap ([5, 7, 5, 9] : List Nat)).1[0]? =
      (uniqueMap ([5, 7, 5, 9] : List Nat)).1[2]? :=
  ⟨by decide, (uniqueMap_sound ([5, 7, 5, 9] : List Nat)).2.2.2.2 0 2
    (by decide) (by decide) (by decide)⟩

/-! ## C4: concrete dedup scenario -/

/-- C4: for a 4-vertex geometry where vertex 0 and vertex 2 hash equal and all
other vertices are distinct, the duplicate-vertex scan yields
`v_map = [0,1,0,2]` and `v_map_inverse = [0,1,3]` (3 vertices survive: index 2
is retired, index 3 is renumbered to 2), and re-pointing the triangle list
`[(0,1,2),(1,2,3)]` through `v_map` yields `[(0,1,0),(1,0,2)]`. -/
theorem dedup_scenario {K : Type} [DecidableEq K] (h0 h1 h3 : K)
    (ne01 : h0 ≠ h1) (ne03 : h0 ≠ h3) (ne13 : h1 ≠ h3) :
    uniqueMap [h0, h1, h0, h3] = ([0, 1, 0, 2], [0, 1, 3]) ∧
    remapTriangles [0, 1, 0, 2] [(0, 1, 2), (1, 2, 3)] =
      some [(0, 1, 0), (1, 0, 2)] := by
  refine ⟨?_, rfl⟩
  simp [uniqueMap, uniqueMapStep, lookupKm, List.find?, ne01, ne03, ne13]

theorem dedup_scenario_witness :
    ((10 : Nat) ≠ 11 ∧ (10 : Nat) ≠ 13 ∧ (11 : Nat) ≠ 13) ∧
    (uniqueMap [10, 11, 10, 13] = ([0, 1, 0, 2], [0, 1, 3]) ∧
     remapTriangles [0, 1, 0, 2] [(0, 1, 2), (1, 2, 3)] =
       some [(0, 1, 0), (1, 0, 2)]) :=
  ⟨by decide, dedup_scenario 10 11 13 (by decide) (by decide) (by decide)⟩

/-! ## C1: MOPP round-trip -/

theorem decodeInstr_leafCompact (mopp : List Nat) (i t code : Nat)
    (h1 : 0x30 ≤ code) (h2 : code < 0x50) :
    decodeInstr mopp i t code = .leaf [i] (code - 0x30 + t) := by
  unfold decodeInstr
  repeat rw [if_neg (by omega)]
  rw [if_pos ⟨h1, h2⟩]

theorem decodeInstr_incr8 (mopp : List Nat) (i t b : Nat)
    (h1 : mopp[i+1]? = some b) :
    decodeInstr mopp i t 0x09 = .cont [i, i+1] 2 (t + b) := by
  simp [decodeInstr, h1]

theorem decodeInstr_testz (mopp : List Nat) (i t a b c : Nat)
    (h1 : mopp[i+1]? = some a) (h2 : mopp[i+2]? = some b)
    (h3 : mopp[i+3]? = some c) :
    decodeInstr mopp i t 0x12 = .branch [i, i+1, i+2, i+3] 4 (4 + c) := by
  simp [decodeInstr, h1, h2, h3]

theorem decodeInstr_boundZ (mopp : List Nat) (i t a b : Nat)
    (h1 : mopp[i+1]? = some a) (h2 : mopp[i+2]? = some b) :
    decodeInstr mopp i t 0x28 = .cont [i, i+1, i+2] 3 t := by
  simp [decodeInstr, h1, h2]

theorem decodeInstr_boundY (mopp : List Nat) (i t a b : Nat)
    (h1 : mopp[i+1]? = some a) (h2 : mopp[i+2]? = some b) :
    decodeInstr mopp i t 0x27 = .cont [i, i+1, i+2] 3 t := by
  simp [decodeInstr, h1, h2]

theorem decodeInstr_boundX (mopp : List Nat) (i t a b : Nat)
    (h1 : mopp[i+1]? = some a) (h2 : mopp[i+2]? = some b) :
    decodeInstr mopp i t 0x26 = .cont [i, i+1, i+2] 3 t := by
  simp [decodeInstr, h1, h2]

theorem parseMoppF_step_leaf (mopp : List Nat) (f i t code : Nat)
    (ids : List Nat) (tri : Nat)
    (hr : mopp[i]? = some code)
    (hd : decodeInstr mopp i t code = .leaf ids tri) :
    parseMoppF mopp (f + 1) i t = .ok (ids, [tri]) := by
  simp only [parseMoppF, hr, hd]

theorem parseMoppF_step_cont (mopp : List Nat) (f i t code di t2 : Nat)
    (ids ids2 tris2 : List Nat)
    (hr : mopp[i]? = some code)
    (hd : decodeInstr mopp i t code = .cont ids di t2)
    (hsub : parseMoppF mopp f (i + di) t2 = .ok (ids2, tris2)) :
    parseMoppF mopp (f + 1) i t = .ok (ids ++ ids2, tris2) := by
  simp only [parseMoppF, hr, hd, hsub]

theorem parseMoppF_step_branch (mopp : List Nat) (f i t code dthen delse : Nat)
    (ids ids1 tris1 ids2 tris2 : List Nat)
    (hr : mopp[i]? = some code)
    (hd : decodeInstr mopp i t code = .branch ids dthen delse)
    (h1 : parseMoppF mopp f (i + dthen) t = .ok (ids1, tris1))
    (h2 : parseMoppF mopp f (i + delse) t = .ok (ids2, tris2)) :
    parseMoppF mopp (f + 1) i t = .ok (ids ++ ids1 ++ ids2, tris1 ++ tris2) := by
  simp only [parseMoppF, hr, hd, h1, h2]

theorem map_range_shift (a k : Nat) :
    (List.range (k + 1)).map (fun j => a + j) =
      a :: (List.range k).map (fun j => a + 1 + j) := by
  rw [List.range_succ_eq_map]
  simp only [List.map_cons, List.map_map, Nat.add_zero]
  congr 1
  apply List.map_congr_left
  intro x _
  simp only [Function.comp_apply, Nat.succ_eq_add_one]
  omega

theorem trivialChain_length (maxz : Nat) :
    ∀ k d, 2 * k + 1 ≤ (trivialChain maxz k d).length := by
  intro k
  induction k with
  | zero => intro d; simp [trivialChain]
  | succ k ih =>
    intro d
    simp only [trivialChain]
    split
    · have := ih 0
      simp only [List.length_append, List.length_cons, List.length_nil]
      omega
    · have := ih (d + 1)
      simp only [List.length_append, List.length_cons, List.length_nil]
      omega

theorem trivialChain_parse (maxz : Nat) :
    ∀ k fuel (pre : List Nat) (off d : Nat), d ≤ 31 → 2 * k + 2 ≤ fuel →
    ∃ ids, parseMoppF (pre ++ trivialChain maxz k d) fuel pre.length off =
      .ok (ids, (List.range (k + 1)).map (fun j => off + d + j)) := by
  intro k
  induction k with
  | zero =>
    intro fuel pre off d hd hfuel
    obtain ⟨f, rfl⟩ : ∃ f, fuel = f + 1 := ⟨fuel - 1, by omega⟩
    simp only [trivialChain]
    have hr : (pre ++ [0x30 + d])[pre.length]? = some (0x30 + d) := by
      rw [getElem?_append_len0]
      rfl
    have hdec := decodeInstr_leafCompact (pre ++ [0x30 + d]) pre.length off
      (0x30 + d) (by omega) (by omega)
    have hstep := parseMoppF_step_leaf (pre ++ [0x30 + d]) f pre.length off
      (0x30 + d) [pre.length] (0x30 + d - 0x30 + off) hr hdec
    refine ⟨[pre.length], ?_⟩
    rw [hstep]
    congr 1
    rw [show List.range 1 = [0] from rfl]
    simp only [List.map_cons, List.map_nil]
    congr 2
    omega
  | succ k ih =>
    intro fuel pre off d hd hfuel
    obtain ⟨f, rfl⟩ : ∃ f, fuel = f + 1 + 1 := ⟨fuel - 2, by omega⟩
    rcases eq_or_ne d 31 with rfl | hne31
    · -- wrap case: the compact-leaf range is exhausted after this leaf
      have hchain : trivialChain maxz (k + 1) 31 =
          [0x12, maxz, 0, 1, 0x30 + 31] ++
            ([0x09, 0x20] ++ trivialChain maxz k 0) := by
        simp [trivialChain]
      rw [hchain]
      set buf := pre ++ ([0x12, maxz, 0, 1, 0x30 + 31] ++
        ([0x09, 0x20] ++ trivialChain maxz k 0)) with hbuf
      have hr0 : buf[pre.length]? = some 0x12 := by
        rw [hbuf, getElem?_append_len0]; simp
      have hr1 : buf[pre.length + 1]? = some maxz := by
        rw [hbuf, getElem?_append_len]; simp
      have hr2 : buf[pre.length + 2]? = some 0 := by
        rw [hbuf, getElem?_append_len]; simp
      have hr3 : buf[pre.length + 3]? = some 1 := by
        rw [hbuf, getElem?_append_len]; simp
      have hr4 : buf[pre.length + 4]? = some (0x30 + 31) := by
        rw [hbuf, getElem?_append_len]; simp
      have hr5 : buf[pre.length + 5]? = some 0x09 := by
        rw [hbuf, getElem?_append_len]; simp
      have hr6 : buf[pre.length + 6]? = some 0x20 := by
        rw [hbuf, getElem?_append_len]; simp
      have hdec := decodeInstr_testz buf pre.length off maxz 0 1 hr1 hr2 hr3
      have hthen := parseMoppF_step_leaf buf f (pre.length + 4) off (0x30 + 31)
        [pre.length + 4] (0x30 + 31 - 0x30 + off) hr4
        (decodeInstr_leafCompact buf (pre.length + 4) off (0x30 + 31)
          (by omega) (by omega))
      -- else side: the 0x09 0x20 offset increment, then the rest of the chain
      obtain ⟨ids2, hih⟩ := ih (f : Nat)
        (pre ++ [0x12, maxz, 0, 1, 0x30 + 31] ++ [0x09, 0x20]) (off + 0x20) 0
        (by omega) (by omega)
      have hassoc : (pre ++ [0x12, maxz, 0, 1, 0x30 + 31] ++ [0x09, 0x20]) ++
          trivialChain maxz k 0 = buf := by rw [hbuf]; simp
      rw [hassoc] at hih
      have hlen72 : (pre ++ [0x12, maxz, 0, 1, 0x30 + 31] ++ [0x09, 0x20]).length =
          pre.length + 5 + 2 := by simp
      rw [hlen72] at hih
      have hdec9 := decodeInstr_incr8 buf (pre.length + 5) off 0x20 hr6
      have helse := parseMoppF_step_cont buf f (pre.length + 5) off 0x09 2
        (off + 0x20) [pre.length + 5, pre.length + 5 + 1] ids2
        ((List.range (k + 1)).map (fun j => off + 0x20 + 0 + j)) hr5 hdec9 hih
      have hstep := parseMoppF_step_branch buf (f + 1) pre.length off 0x12 4
        (4 + 1) [pre.length, pre.length + 1, pre.length + 2, pre.length + 3]
        [pre.length + 4] [0x30 + 31 - 0x30 + off]
        ([pre.length + 5, pre.length + 5 + 1] ++ ids2)
        ((List.range (k + 1)).map (fun j => off + 0x20 + 0 + j)) hr0 hdec hthen
        helse
      refine ⟨[pre.length, pre.length + 1, pre.length + 2, pre.length + 3] ++
        [pre.length + 4] ++ ([pre.length + 5, pre.length + 5 + 1] ++ ids2), ?_⟩
      have htris : [0x30 + 31 - 0x30 + off] ++
          (List.range (k + 1)).map (fun j => off + 0x20 + 0 + j) =
          (List.range (k + 1 + 1)).map (fun j => off + 31 + j) := by
        rw [map_range_shift (off + 31) (k + 1), List.singleton_append]
        congr 1
        omega
      rw [hstep, htris]
    · -- non-wrap case: the next leaf byte is one higher
      have hd30 : d ≤ 30 := by omega
      have hchain : trivialChain maxz (k + 1) d =
          [0x12, maxz, 0, 1, 0x30 + d] ++ trivialChain maxz k (d + 1) := by
        simp [trivialChain, hne31]
      rw [hchain]
      set buf := pre ++ ([0x12, maxz, 0, 1, 0x30 + d] ++
        trivialChain maxz k (d + 1)) with hbuf
      have hr0 : buf[pre.length]? = some 0x12 := by
        rw [hbuf, getElem?_append_len0]; simp
      have hr1 : buf[pre.length + 1]? = some maxz := by
        rw [hbuf, getElem?_append_len]; simp
      have hr2 : buf[pre.length + 2]? = some 0 := by
        rw [hbuf, getElem?_append_len]; simp
      have hr3 : buf[pre.length + 3]? = some 1 := by
        rw [hbuf, getElem?_append_len]; simp
      have hr4 : buf[pre.length + 4]? = some (0x30 + d) := by
        rw [hbuf, getElem?_append_len]; simp
      have hdec := decodeInstr_testz buf pre.length off maxz 0 1 hr1 hr2 hr3
      have hthen := parseMoppF_step_leaf buf f (pre.length + 4) off
        (0x30 + d) [pre.length + 4] (0x30 + d - 0x30 + off) hr4
        (decodeInstr_leafCompact buf (pre.length + 4) off (0x30 + d)
          (by omega) (by omega))
      obtain ⟨ids2, hih⟩ := ih (f + 1)
        (pre ++ [0x12, maxz, 0, 1, 0x30 + d]) off (d + 1) (by omega) (by omega)
      have hassoc : (pre ++ [0x12, maxz, 0, 1, 0x30 + d]) ++
          trivialChain maxz k (d + 1) = buf := by rw [hbuf]; simp
      rw [hassoc] at hih
      have hlen5 : (pre ++ [0x12, maxz, 0, 1, 0x30 + d]).length = pre.length + 5 := by
        simp
      rw [hlen5] at hih
      have hstep := parseMoppF_step_branch buf (f + 1) pre.length off 0x12 4
        (4 + 1) [pre.length, pre.length + 1, pre.length + 2, pre.length + 3]
        [pre.length + 4] [0x30 + d - 0x30 + off] ids2
        ((List.range (k + 1)).map (fun j => off + (d + 1) + j)) hr0 hdec hthen
        hih
      refine ⟨[pre.length, pre.length + 1, pre.length + 2, pre.length + 3] ++
        [pre.length + 4] ++ ids2, ?_⟩
      have htris : [0x30 + d - 0x30 + off] ++
          (List.range (k + 1)).map (fun j => off + (d + 1) + j) =
          (List.range (k + 1 + 1)).map (fun j => off + d + j) := by
        rw [map_range_shift (off + d) (k + 1), List.singleton_append]
        congr 1
        omega
      rw [hstep, htris]

/-- C1: MOPP round-trip.  For every triangle count `n ≥ 1`, decoding the byte
blob assembled by `updateMopp` (three bound-setters followed by the trivial
tree) from offset 0 with initial triangle offset 0 succeeds and yields the
triangle-index list `[0, 1, …, n-1]`: exactly the set `{0, …, n-1}`, with no
duplicates and no index out of range. -/
theorem mopp_roundtrip (maxx maxy maxz n : Nat) (hn : 1 ≤ n) :
    ∃ ids tris, parseMopp (moppAssembly maxx maxy maxz n) 0 0 = .ok (ids, tris) ∧
      tris = List.range n ∧ tris.Nodup ∧
      (∀ t ∈ tris, t < n) ∧ (∀ t, t < n → t ∈ tris) := by
  set buf := moppAssembly maxx maxy maxz n with hbd
  have hchlen := trivialChain_length maxz (n - 1) 0
  have hlen : buf.length = 9 + (trivialChain maxz (n - 1) 0).length := by
    simp [hbd, moppAssembly]
    omega
  obtain ⟨f, hf⟩ : ∃ f, buf.length = f + 1 + 1 + 1 := ⟨buf.length - 3, by omega⟩
  have hr1 : buf[1]? = some 0 := by simp [hbd, moppAssembly]
  have hr2 : buf[2]? = some maxz := by simp [hbd, moppAssembly]
  have hr4 : buf[4]? = some 0 := by simp [hbd, moppAssembly]
  have hr5 : buf[5]? = some maxy := by simp [hbd, moppAssembly]
  have hr7 : buf[7]? = some 0 := by simp [hbd, moppAssembly]
  have hr8 : buf[8]? = some maxx := by simp [hbd, moppAssembly]
  have hr0 : buf[0]? = some 0x28 := by simp [hbd, moppAssembly]
  have hr3 : buf[3]? = some 0x27 := by simp [hbd, moppAssembly]
  have hr6 : buf[6]? = some 0x26 := by simp [hbd, moppAssembly]
  obtain ⟨ids, hch⟩ := trivialChain_parse maxz (n - 1) f
    [0x28, 0, maxz, 0x27, 0, maxy, 0x26, 0, maxx] 0 0 (by omega) (by omega)
  rw [show ([0x28, 0, maxz, 0x27, 0, maxy, 0x26, 0, maxx] : List Nat).length = 9
    from rfl] at hch
  rw [show ([0x28, 0, maxz, 0x27, 0, maxy, 0x26, 0, maxx] : List Nat) ++
    trivialChain maxz (n - 1) 0 = buf from by rw [hbd]; rfl] at hch
  rw [show n - 1 + 1 = n from by omega] at hch
  have hmap : (List.range n).map (fun j => 0 + 0 + j) = List.range n := by
    have h' : (List.range n).map (fun j => 0 + 0 + j) =
        (List.range n).map id := by
      apply List.map_congr_left
      intro x _
      simp
    rw [h', List.map_id]
  rw [hmap] at hch
  have h3 := parseMoppF_step_cont buf f 6 0 0x26 3 0 [6, 6+1, 6+2] ids
    (List.range n) hr6 (decodeInstr_boundX buf 6 0 0 maxx hr7 hr8) hch
  have h2 := parseMoppF_step_cont buf (f + 1) 3 0 0x27 3 0 [3, 3+1, 3+2]
    ([6, 6+1, 6+2] ++ ids) (List.range n) hr3
    (decodeInstr_boundY buf 3 0 0 maxy hr4 hr5) h3
  have h1 := parseMoppF_step_cont buf (f + 1 + 1) 0 0 0x28 3 0 [0, 0+1, 0+2]
    ([3, 3+1, 3+2] ++ ([6, 6+1, 6+2] ++ ids)) (List.range n) hr0
    (decodeInstr_boundZ buf 0 0 0 maxz hr1 hr2) h2
  refine ⟨[0, 0+1, 0+2] ++ ([3, 3+1, 3+2] ++ ([6, 6+1, 6+2] ++ ids)),
    List.range n, ?_, rfl, List.nodup_range n,
    fun t ht => List.mem_range.mp ht, fun t ht => List.mem_range.mpr ht⟩
  rw [show parseMopp buf 0 0 = parseMoppF buf buf.length 0 0 from rfl, hf]
  exact h1

theorem mopp_roundtrip_witness :
    1 ≤ 3 ∧ ∃ ids tris,
      parseMopp (moppAssembly 10 11 12 3) 0 0 = .ok (ids, tris) ∧
      tris = List.range 3 ∧ tris.Nodup ∧
      (∀ t ∈ tris, t < 3) ∧ (∀ t, t < 3 → t ∈ tris) :=
  ⟨by decide, mopp_roundtrip 10 11 12 3 (by decide)⟩

/-! ## C5: unknown opcodes fail hard, recognized streams never raise -/

theorem decodeInstr_unknown (mopp : List Nat) (i t code : Nat)
    (h : recognizedOpcode code = false) :
    decodeInstr mopp i t code = .err (.unknownOpcode i code) := by
  simp only [recognizedOpcode, Bool.or_eq_false_iff, Bool.and_eq_false_iff,
    decide_eq_false_iff_not, not_le, not_lt] at h
  unfold decodeInstr
  repeat rw [if_neg (by omega)]

theorem decodeInstr_incr16 (mopp : List Nat) (i t b1 b2 : Nat)
    (h1 : mopp[i+1]? = some b1) (h2 : mopp[i+2]? = some b2) :
    decodeInstr mopp i t 0x0A = .cont [i, i+1, i+2] 3 (t + b1 * 256 + b2) := by
  simp [decodeInstr, h1, h2]

theorem decodeInstr_setOffset (mopp : List Nat) (i t b1 b2 b3 b4 : Nat)
    (h1 : mopp[i+1]? = some b1) (h2 : mopp[i+2]? = some b2)
    (h3 : mopp[i+3]? = some b3) (h4 : mopp[i+4]? = some b4) :
    decodeInstr mopp i t 0x0B =
      .cont [i, i+1, i+2, i+3, i+4] 5 (256 * b3 + b4) := by
  simp [decodeInstr, h1, h2, h3, h4]

theorem decodeInstr_leafByte (mopp : List Nat) (i t b : Nat)
    (h1 : mopp[i+1]? = some b) :
    decodeInstr mopp i t 0x50 = .leaf [i, i+1] (b + t) := by
  simp [decodeInstr, h1]

theorem decodeInstr_leafShort (mopp : List Nat) (i t b1 b2 : Nat)
    (h1 : mopp[i+1]? = some b1) (h2 : mopp[i+2]? = some b2) :
    decodeInstr mopp i t 0x51 = .leaf [i, i+1, i+2] (b1 * 256 + b2 + t) := by
  simp [decodeInstr, h1, h2]

theorem decodeInstr_leafShort2 (mopp : List Nat) (i t b1 b2 b3 b4 : Nat)
    (h1 : mopp[i+1]? = some b1) (h2 : mopp[i+2]? = some b2)
    (h3 : mopp[i+3]? = some b3) (h4 : mopp[i+4]? = some b4) :
    decodeInstr mopp i t 0x53 =
      .leaf [i, i+1, i+2, i+3, i+4] (b3 * 256 + b4 + t) := by
  simp [decodeInstr, h1, h2, h3, h4]

theorem decodeInstr_jump8 (mopp : List Nat) (i t b : Nat)
    (h1 : mopp[i+1]? = some b) :
    decodeInstr mopp i t 0x05 = .cont [i, i+1] (2 + b) t := by
  simp [decodeInstr, h1]

theorem decodeInstr_jump16 (mopp : List Nat) (i t b1 b2 : Nat)
    (h1 : mopp[i+1]? = some b1) (h2 : mopp[i+2]? = some b2) :
    decodeInstr mopp i t 0x06 = .cont [i, i+1, i+2] (3 + b1 * 256 + b2) t := by
  simp [decodeInstr, h1, h2]

theorem decodeInstr_branch2_family (mopp : List Nat) (i t code a b c3 : Nat)
    (hc : code = 0x10 ∨ code = 0x11 ∨ code = 0x12 ∨ code = 0x13 ∨
      code = 0x14 ∨ code = 0x15 ∨ code = 0x16 ∨ code = 0x17 ∨ code = 0x18 ∨
      code = 0x19 ∨ code = 0x1A ∨ code = 0x1C)
    (h1 : mopp[i+1]? = some a) (h2 : mopp[i+2]? = some b)
    (h3 : mopp[i+3]? = some c3) :
    decodeInstr mopp i t code = .branch [i, i+1, i+2, i+3] 4 (4 + c3) := by
  rcases hc with rfl | rfl | rfl | rfl | rfl | rfl | rfl | rfl | rfl | rfl |
    rfl | rfl <;>
    simp [decodeInstr, h1, h2, h3]

theorem decodeInstr_branch1_family (mopp : List Nat) (i t code a b2 : Nat)
    (hc : code = 0x20 ∨ code = 0x21 ∨ code = 0x22)
    (h1 : mopp[i+1]? = some a) (h2 : mopp[i+2]? = some b2) :
    decodeInstr mopp i t code = .branch [i, i+1, i+2] 3 (3 + b2) := by
  rcases hc with rfl | rfl | rfl <;> simp [decodeInstr, h1, h2]

theorem decodeInstr_branchShort_family (mopp : List Nat)
    (i t code b1 b2 b3 b4 b5 b6 : Nat)
    (hc : code = 0x23 ∨ code = 0x24 ∨ code = 0x25)
    (h1 : mopp[i+1]? = some b1) (h2 : mopp[i+2]? = some b2)
    (h3 : mopp[i+3]? = some b3) (h4 : mopp[i+4]? = some b4)
    (h5 : mopp[i+5]? = some b5) (h6 : mopp[i+6]? = some b6) :
    decodeInstr mopp i t code = .branch [i, i+1, i+2, i+3, i+4, i+5, i+6]
      (7 + (b3 * 256 + b4)) (7 + (b5 * 256 + b6)) := by
  rcases hc with rfl | rfl | rfl <;> simp [decodeInstr, h1, h2, h3, h4, h5, h6]

theorem decodeInstr_bound_family (mopp : List Nat) (i t code a b : Nat)
    (hc : code = 0x26 ∨ code = 0x27 ∨ code = 0x28)
    (h1 : mopp[i+1]? = some a) (h2 : mopp[i+2]? = some b) :
    decodeInstr mopp i t code = .cont [i, i+1, i+2] 3 t := by
  rcases hc with rfl | rfl | rfl <;> simp [decodeInstr, h1, h2]

theorem decodeInstr_bound4_family (mopp : List Nat) (i t code b1 b2 b3 : Nat)
    (hc : code = 0x01 ∨ code = 0x02 ∨ code = 0x03 ∨ code = 0x04)
    (h1 : mopp[i+1]? = some b1) (h2 : mopp[i+2]? = some b2)
    (h3 : mopp[i+3]? = some b3) :
    decodeInstr mopp i t code = .cont [i, i+1, i+2, i+3] 4 t := by
  rcases hc with rfl | rfl | rfl | rfl <;> simp [decodeInstr, h1, h2, h3]

theorem encodeMoppProg_parse (p : MoppProg) :
    ∀ (fuel : Nat) (pre post : List Nat) (off : Nat), moppProgSteps p ≤ fuel →
    ∃ ids tris,
      parseMoppF (pre ++ (encodeMoppProg p ++ post)) fuel pre.length off =
        .ok (ids, tris) := by
  induction p with
  | leafCompact v =>
    intro fuel pre post off hfuel
    simp only [moppProgSteps] at hfuel
    obtain ⟨f, rfl⟩ : ∃ f, fuel = f + 1 := ⟨fuel - 1, by omega⟩
    simp only [encodeMoppProg]
    have hr : (pre ++ ([0x30 + v.val] ++ post))[pre.length]? =
        some (0x30 + v.val) := by
      rw [getElem?_append_len0]; simp
    have hv := v.isLt
    exact ⟨_, _, parseMoppF_step_leaf _ f _ off _ _ _ hr
      (decodeInstr_leafCompact _ pre.length off _ (by omega) (by omega))⟩
  | leafByte b =>
    intro fuel pre post off hfuel
    simp only [moppProgSteps] at hfuel
    obtain ⟨f, rfl⟩ : ∃ f, fuel = f + 1 := ⟨fuel - 1, by omega⟩
    simp only [encodeMoppProg]
    have hr0 : (pre ++ ([0x50, b] ++ post))[pre.length]? = some 0x50 := by
      rw [getElem?_append_len0]; simp
    have hr1 : (pre ++ ([0x50, b] ++ post))[pre.length + 1]? = some b := by
      rw [getElem?_append_len]; simp
    exact ⟨_, _, parseMoppF_step_leaf _ f _ off _ _ _ hr0
      (decodeInstr_leafByte _ pre.length off b hr1)⟩
  | leafShort b1 b2 =>
    intro fuel pre post off hfuel
    simp only [moppProgSteps] at hfuel
    obtain ⟨f, rfl⟩ : ∃ f, fuel = f + 1 := ⟨fuel - 1, by omega⟩
    simp only [encodeMoppProg]
    have hr0 : (pre ++ ([0x51, b1, b2] ++ post))[pre.length]? = some 0x51 := by
      rw [getElem?_append_len0]; simp
    have hr1 : (pre ++ ([0x51, b1, b2] ++ post))[pre.length + 1]? = some b1 := by
      rw [getElem?_append_len]; simp
    have hr2 : (pre ++ ([0x51, b1, b2] ++ post))[pre.length + 2]? = some b2 := by
      rw [getElem?_append_len]; simp
    exact ⟨_, _, parseMoppF_step_leaf _ f _ off _ _ _ hr0
      (decodeInstr_leafShort _ pre.length off b1 b2 hr1 hr2)⟩
  | leafShort2 b1 b2 b3 b4 =>
    intro fuel pre post off hfuel
    simp only [moppProgSteps] at hfuel
    obtain ⟨f, rfl⟩ : ∃ f, fuel = f + 1 := ⟨fuel - 1, by omega⟩
    simp only [encodeMoppProg]
    have hr0 : (pre ++ ([0x53, b1, b2, b3, b4] ++ post))[pre.length]? =
        some 0x53 := by
      rw [getElem?_append_len0]; simp
    have hr1 : (pre ++ ([0x53, b1, b2, b3, b4] ++ post))[pre.length + 1]? =
        some b1 := by
      rw [getElem?_append_len]; simp
    have hr2 : (pre ++ ([0x53, b1, b2, b3, b4] ++ post))[pre.length + 2]? =
        some b2 := by
      rw [getElem?_append_len]; simp
    have hr3 : (pre ++ ([0x53, b1, b2, b3, b4] ++ post))[pre.length + 3]? =
        some b3 := by
      rw [getElem?_append_len]; simp
    have hr4 : (pre ++ ([0x53, b1, b2, b3, b4] ++ post))[pre.length + 4]? =
        some b4 := by
      rw [getElem?_append_len]; simp
    exact ⟨_, _, parseMoppF_step_leaf _ f _ off _ _ _ hr0
      (decodeInstr_leafShort2 _ pre.length off b1 b2 b3 b4 hr1 hr2 hr3 hr4)⟩
  | branch2 c a b thn els ih_thn ih_els =>
    intro fuel pre post off hfuel
    simp only [moppProgSteps] at hfuel
    obtain ⟨f, rfl⟩ : ∃ f, fuel = f + 1 := ⟨fuel - 1, by omega⟩
    simp only [encodeMoppProg]
    obtain ⟨T, hT⟩ : ∃ l, l = encodeMoppProg thn := ⟨_, rfl⟩
    obtain ⟨E, hE⟩ : ∃ l, l = encodeMoppProg els := ⟨_, rfl⟩
    rw [← hT, ← hE]
    have hassoc : ([branch2Code c, a, b, T.length] ++ T ++ E) ++ post =
        [branch2Code c, a, b, T.length] ++ (T ++ (E ++ post)) := by
      simp [List.append_assoc]
    rw [hassoc]
    have hr0 : (pre ++ ([branch2Code c, a, b, T.length] ++
        (T ++ (E ++ post))))[pre.length]? = some (branch2Code c) := by
      rw [getElem?_append_len0]; simp
    have hr1 : (pre ++ ([branch2Code c, a, b, T.length] ++
        (T ++ (E ++ post))))[pre.length + 1]? = some a := by
      rw [getElem?_append_len]; simp
    have hr2 : (pre ++ ([branch2Code c, a, b, T.length] ++
        (T ++ (E ++ post))))[pre.length + 2]? = some b := by
      rw [getElem?_append_len]; simp
    have hr3 : (pre ++ ([branch2Code c, a, b, T.length] ++
        (T ++ (E ++ post))))[pre.length + 3]? = some T.length := by
      rw [getElem?_append_len]; simp
    have hc : branch2Code c = 0x10 ∨ branch2Code c = 0x11 ∨
        branch2Code c = 0x12 ∨ branch2Code c = 0x13 ∨ branch2Code c = 0x14 ∨
        branch2Code c = 0x15 ∨ branch2Code c = 0x16 ∨ branch2Code c = 0x17 ∨
        branch2Code c = 0x18 ∨ branch2Code c = 0x19 ∨ branch2Code c = 0x1A ∨
        branch2Code c = 0x1C := by
      have := c.isLt
      unfold branch2Code
      split <;> omega
    have hdec := decodeInstr_branch2_family _ pre.length off (branch2Code c)
      a b T.length hc hr1 hr2 hr3
    obtain ⟨ids1, tris1, hthn⟩ := ih_thn f
      (pre ++ [branch2Code c, a, b, T.length]) (E ++ post) off (by omega)
    rw [← hT] at hthn
    rw [show (pre ++ [branch2Code c, a, b, T.length]).length = pre.length + 4
      from by simp] at hthn
    rw [show (pre ++ [branch2Code c, a, b, T.length]) ++ (T ++ (E ++ post)) =
      pre ++ ([branch2Code c, a, b, T.length] ++ (T ++ (E ++ post)))
      from by simp] at hthn
    obtain ⟨ids2, tris2, hels⟩ := ih_els f
      (pre ++ [branch2Code c, a, b, T.length] ++ T) post off (by omega)
    rw [← hE] at hels
    rw [show (pre ++ [branch2Code c, a, b, T.length] ++ T).length =
      pre.length + (4 + T.length) from by
        simp only [List.length_append, List.length_cons, List.length_nil]
        omega] at hels
    rw [show (pre ++ [branch2Code c, a, b, T.length] ++ T) ++ (E ++ post) =
      pre ++ ([branch2Code c, a, b, T.length] ++ (T ++ (E ++ post)))
      from by simp] at hels
    exact ⟨_, _, parseMoppF_step_branch _ f pre.length off (branch2Code c)
      4 (4 + T.length) _ ids1 tris1 ids2 tris2 hr0 hdec hthn hels⟩
  | branch1 c a thn els ih_thn ih_els =>
    intro fuel pre post off hfuel
    simp only [moppProgSteps] at hfuel
    obtain ⟨f, rfl⟩ : ∃ f, fuel = f + 1 := ⟨fuel - 1, by omega⟩
    simp only [encodeMoppProg]
    obtain ⟨T, hT⟩ : ∃ l, l = encodeMoppProg thn := ⟨_, rfl⟩
    obtain ⟨E, hE⟩ : ∃ l, l = encodeMoppProg els := ⟨_, rfl⟩
    rw [← hT, ← hE]
    have hassoc : ([0x20 + c.val, a, T.length] ++ T ++ E) ++ post =
        [0x20 + c.val, a, T.length] ++ (T ++ (E ++ post)) := by
      simp [List.append_assoc]
    rw [hassoc]
    have hr0 : (pre ++ ([0x20 + c.val, a, T.length] ++
        (T ++ (E ++ post))))[pre.length]? = some (0x20 + c.val) := by
      rw [getElem?_append_len0]; simp
    have hr1 : (pre ++ ([0x20 + c.val, a, T.length] ++
        (T ++ (E ++ post))))[pre.length + 1]? = some a := by
      rw [getElem?_append_len]; simp
    have hr2 : (pre ++ ([0x20 + c.val, a, T.length] ++
        (T ++ (E ++ post))))[pre.length + 2]? = some T.length := by
      rw [getElem?_append_len]; simp
    have hc : 0x20 + c.val = 0x20 ∨ 0x20 + c.val = 0x21 ∨
        0x20 + c.val = 0x22 := by
      have := c.isLt
      omega
    have hdec := decodeInstr_branch1_family _ pre.length off (0x20 + c.val)
      a T.length hc hr1 hr2
    obtain ⟨ids1, tris1, hthn⟩ := ih_thn f
      (pre ++ [0x20 + c.val, a, T.length]) (E ++ post) off (by omega)
    rw [← hT] at hthn
    rw [show (pre ++ [0x20 + c.val, a, T.length]).length = pre.length + 3
      from by simp] at hthn
    rw [show (pre ++ [0x20 + c.val, a, T.length]) ++ (T ++ (E ++ post)) =
      pre ++ ([0x20 + c.val, a, T.length] ++ (T ++ (E ++ post)))
      from by simp] at hthn
    obtain ⟨ids2, tris2, hels⟩ := ih_els f
      (pre ++ [0x20 + c.val, a, T.length] ++ T) post off (by omega)
    rw [← hE] at hels
    rw [show (pre ++ [0x20 + c.val, a, T.length] ++ T).length =
      pre.length + (3 + T.length) from by
        simp only [List.length_append, List.length_cons, List.length_nil]
        omega] at hels
    rw [show (pre ++ [0x20 + c.val, a, T.length] ++ T) ++ (E ++ post) =
      pre ++ ([0x20 + c.val, a, T.length] ++ (T ++ (E ++ post)))
      from by simp] at hels
    exact ⟨_, _, parseMoppF_step_branch _ f pre.length off (0x20 + c.val)
      3 (3 + T.length) _ ids1 tris1 ids2 tris2 hr0 hdec hthn hels⟩
  | branchShort c a b thn els ih_thn ih_els =>
    intro fuel pre post off hfuel
    simp only [moppProgSteps] at hfuel
    obtain ⟨f, rfl⟩ : ∃ f, fuel = f + 1 := ⟨fuel - 1, by omega⟩
    simp only [encodeMoppProg]
    obtain ⟨T, hT⟩ : ∃ l, l = encodeMoppProg thn := ⟨_, rfl⟩
    obtain ⟨E, hE⟩ : ∃ l, l = encodeMoppProg els := ⟨_, rfl⟩
    rw [← hT, ← hE]
    have hassoc : ([0x23 + c.val, a, b, 0, 0, T.length / 256, T.length % 256]
        ++ T ++ E) ++ post =
        [0x23 + c.val, a, b, 0, 0, T.length / 256, T.length % 256] ++
          (T ++ (E ++ post)) := by
      simp [List.append_assoc]
    rw [hassoc]
    have hr0 : (pre ++ ([0x23 + c.val, a, b, 0, 0, T.length / 256,
        T.length % 256] ++ (T ++ (E ++ post))))[pre.length]? =
        some (0x23 + c.val) := by
      rw [getElem?_append_len0]; simp
    have hr1 : (pre ++ ([0x23 + c.val, a, b, 0, 0, T.length / 256,
        T.length % 256] ++ (T ++ (E ++ post))))[pre.length + 1]? = some a := by
      rw [getElem?_append_len]; simp
    have hr2 : (pre ++ ([0x23 + c.val, a, b, 0, 0, T.length / 256,
        T.length % 256] ++ (T ++ (E ++ post))))[pre.length + 2]? = some b := by
      rw [getElem?_append_len]; simp
    have hr3 : (pre ++ ([0x23 + c.val, a, b, 0, 0, T.length / 256,
        T.length % 256] ++ (T ++ (E ++ post))))[pre.length + 3]? = some 0 := by
      rw [getElem?_append_len]; simp
    have hr4 : (pre ++ ([0x23 + c.val, a, b, 0, 0, T.length / 256,
        T.length % 256] ++ (T ++ (E ++ post))))[pre.length + 4]? = some 0 := by
      rw [getElem?_append_len]; simp
    have hr5 : (pre ++ ([0x23 + c.val, a, b, 0, 0, T.length / 256,
        T.length % 256] ++ (T ++ (E ++ post))))[pre.length + 5]? =
        some (T.length / 256) := by
      rw [getElem?_append_len]; simp
    have hr6 : (pre ++ ([0x23 + c.val, a, b, 0, 0, T.length / 256,
        T.length % 256] ++ (T ++ (E ++ post))))[pre.length + 6]? =
        some (T.length % 256) := by
      rw [getElem?_append_len]; simp
    have hc : 0x23 + c.val = 0x23 ∨ 0x23 + c.val = 0x24 ∨
        0x23 + c.val = 0x25 := by
      have := c.isLt
      omega
    have hdec := decodeInstr_branchShort_family _ pre.length off
      (0x23 + c.val) a b 0 0 (T.length / 256) (T.length % 256) hc
      hr1 hr2 hr3 hr4 hr5 hr6
    rw [show (0 : Nat) * 256 + 0 = 0 from rfl,
      show T.length / 256 * 256 + T.length % 256 = T.length from by omega]
      at hdec
    obtain ⟨ids1, tris1, hthn⟩ := ih_thn f
      (pre ++ [0x23 + c.val, a, b, 0, 0, T.length / 256, T.length % 256])
      (E ++ post) off (by omega)
    rw [← hT] at hthn
    rw [show (pre ++ [0x23 + c.val, a, b, 0, 0, T.length / 256,
      T.length % 256]).length = pre.length + (7 + 0) from by simp] at hthn
    rw [show (pre ++ [0x23 + c.val, a, b, 0, 0, T.length / 256,
      T.length % 256]) ++ (T ++ (E ++ post)) =
      pre ++ ([0x23 + c.val, a, b, 0, 0, T.length / 256, T.length % 256] ++
        (T ++ (E ++ post))) from by simp] at hthn
    obtain ⟨ids2, tris2, hels⟩ := ih_els f
      (pre ++ [0x23 + c.val, a, b, 0, 0, T.length / 256, T.length % 256] ++ T)
      post off (by omega)
    rw [← hE] at hels
    rw [show (pre ++ [0x23 + c.val, a, b, 0, 0, T.length / 256,
      T.length % 256] ++ T).length = pre.length + (7 + T.length) from by
        simp only [List.length_append, List.length_cons, List.length_nil]
        omega] at hels
    rw [show (pre ++ [0x23 + c.val, a, b, 0, 0, T.length / 256,
      T.length % 256] ++ T) ++ (E ++ post) =
      pre ++ ([0x23 + c.val, a, b, 0, 0, T.length / 256, T.length % 256] ++
        (T ++ (E ++ post))) from by simp] at hels
    exact ⟨_, _, parseMoppF_step_branch _ f pre.length off (0x23 + c.val)
      (7 + 0) (7 + T.length) _ ids1 tris1 ids2 tris2 hr0 hdec hthn hels⟩
  | incr8 b rest ih =>
    intro fuel pre post off hfuel
    simp only [moppProgSteps] at hfuel
    obtain ⟨f, rfl⟩ : ∃ f, fuel = f + 1 := ⟨fuel - 1, by omega⟩
    simp only [encodeMoppProg]
    obtain ⟨R, hR⟩ : ∃ l, l = encodeMoppProg rest := ⟨_, rfl⟩
    rw [← hR]
    have hassoc : ([0x09, b] ++ R) ++ post = [0x09, b] ++ (R ++ post) := by
      simp [List.append_assoc]
    rw [hassoc]
    have hr0 : (pre ++ ([0x09, b] ++ (R ++ post)))[pre.length]? =
        some 0x09 := by
      rw [getElem?_append_len0]; simp
    have hr1 : (pre ++ ([0x09, b] ++ (R ++ post)))[pre.length + 1]? =
        some b := by
      rw [getElem?_append_len]; simp
    obtain ⟨ids2, tris2, hih⟩ := ih f (pre ++ [0x09, b]) post (off + b)
      (by omega)
    rw [← hR] at hih
    rw [show (pre ++ [0x09, b]).length = pre.length + 2 from by simp] at hih
    rw [show (pre ++ [0x09, b]) ++ (R ++ post) =
      pre ++ ([0x09, b] ++ (R ++ post)) from by simp] at hih
    exact ⟨_, _, parseMoppF_step_cont _ f pre.length off 0x09 2 (off + b)
      _ ids2 tris2 hr0 (decodeInstr_incr8 _ pre.length off b hr1) hih⟩
  | incr16 b1 b2 rest ih =>
    intro fuel pre post off hfuel
    simp only [moppProgSteps] at hfuel
    obtain ⟨f, rfl⟩ : ∃ f, fuel = f + 1 := ⟨fuel - 1, by omega⟩
    simp only [encodeMoppProg]
    obtain ⟨R, hR⟩ : ∃ l, l = encodeMoppProg rest := ⟨_, rfl⟩
    rw [← hR]
    have hassoc : ([0x0A, b1, b2] ++ R) ++ post =
        [0x0A, b1, b2] ++ (R ++ post) := by
      simp [List.append_assoc]
    rw [hassoc]
    have hr0 : (pre ++ ([0x0A, b1, b2] ++ (R ++ post)))[pre.length]? =
        some 0x0A := by
      rw [getElem?_append_len0]; simp
    have hr1 : (pre ++ ([0x0A, b1, b2] ++ (R ++ post)))[pre.length + 1]? =
        some b1 := by
      rw [getElem?_append_len]; simp
    have hr2 : (pre ++ ([0x0A, b1, b2] ++ (R ++ post)))[pre.length + 2]? =
        some b2 := by
      rw [getElem?_append_len]; simp
    obtain ⟨ids2, tris2, hih⟩ := ih f (pre ++ [0x0A, b1, b2]) post
      (off + b1 * 256 + b2) (by omega)
    rw [← hR] at hih
    rw [show (pre ++ [0x0A, b1, b2]).length = pre.length + 3 from by simp]
      at hih
    rw [show (pre ++ [0x0A, b1, b2]) ++ (R ++ post) =
      pre ++ ([0x0A, b1, b2] ++ (R ++ post)) from by simp] at hih
    exact ⟨_, _, parseMoppF_step_cont _ f pre.length off 0x0A 3
      (off + b1 * 256 + b2) _ ids2 tris2 hr0
      (decodeInstr_incr16 _ pre.length off b1 b2 hr1 hr2) hih⟩
  | setOffset b1 b2 b3 b4 rest ih =>
    intro fuel pre post off hfuel
    simp only [moppProgSteps] at hfuel
    obtain ⟨f, rfl⟩ : ∃ f, fuel = f + 1 := ⟨fuel - 1, by omega⟩
    simp only [encodeMoppProg]
    obtain ⟨R, hR⟩ : ∃ l, l = encodeMoppProg rest := ⟨_, rfl⟩
    rw [← hR]
    have hassoc : ([0x0B, b1, b2, b3, b4] ++ R) ++ post =
        [0x0B, b1, b2, b3, b4] ++ (R ++ post) := by
      simp [List.append_assoc]
    rw [hassoc]
    have hr0 : (pre ++ ([0x0B, b1, b2, b3, b4] ++ (R ++ post)))[pre.length]? =
        some 0x0B := by
      rw [getElem?_append_len0]; simp
    have hr1 : (pre ++ ([0x0B, b1, b2, b3, b4] ++
        (R ++ post)))[pre.length + 1]? = some b1 := by
      rw [getElem?_append_len]; simp
    have hr2 : (pre ++ ([0x0B, b1, b2, b3, b4] ++
        (R ++ post)))[pre.length + 2]? = some b2 := by
      rw [getElem?_append_len]; simp
    have hr3 : (pre ++ ([0x0B, b1, b2, b3, b4] ++
        (R ++ post)))[pre.length + 3]? = some b3 := by
      rw [getElem?_append_len]; simp
    have hr4 : (pre ++ ([0x0B, b1, b2, b3, b4] ++
        (R ++ post)))[pre.length + 4]? = some b4 := by
      rw [getElem?_append_len]; simp
    obtain ⟨ids2, tris2, hih⟩ := ih f (pre ++ [0x0B, b1, b2, b3, b4]) post
      (256 * b3 + b4) (by omega)
    rw [← hR] at hih
    rw [show (pre ++ [0x0B, b1, b2, b3, b4]).length = pre.length + 5
      from by simp] at hih
    rw [show (pre ++ [0x0B, b1, b2, b3, b4]) ++ (R ++ post) =
      pre ++ ([0x0B, b1, b2, b3, b4] ++ (R ++ post)) from by simp] at hih
    exact ⟨_, _, parseMoppF_step_cont _ f pre.length off 0x0B 5
      (256 * b3 + b4) _ ids2 tris2 hr0
      (decodeInstr_setOffset _ pre.length off b1 b2 b3 b4 hr1 hr2 hr3 hr4) hih⟩
  | jump8 filler rest ih =>
    intro fuel pre post off hfuel
    simp only [moppProgSteps] at hfuel
    obtain ⟨f, rfl⟩ : ∃ f, fuel = f + 1 := ⟨fuel - 1, by omega⟩
    simp only [encodeMoppProg]
    obtain ⟨R, hR⟩ : ∃ l, l = encodeMoppProg rest := ⟨_, rfl⟩
    rw [← hR]
    have hassoc : ([0x05, filler.length] ++ filler ++ R) ++ post =
        [0x05, filler.length] ++ (filler ++ (R ++ post)) := by
      simp [List.append_assoc]
    rw [hassoc]
    have hr0 : (pre ++ ([0x05, filler.length] ++
        (filler ++ (R ++ post))))[pre.length]? = some 0x05 := by
      rw [getElem?_append_len0]; simp
    have hr1 : (pre ++ ([0x05, filler.length] ++
        (filler ++ (R ++ post))))[pre.length + 1]? = some filler.length := by
      rw [getElem?_append_len]; simp
    obtain ⟨ids2, tris2, hih⟩ := ih f (pre ++ [0x05, filler.length] ++ filler)
      post off (by omega)
    rw [← hR] at hih
    rw [show (pre ++ [0x05, filler.length] ++ filler).length =
      pre.length + (2 + filler.length) from by
        simp only [List.length_append, List.length_cons, List.length_nil]
        omega] at hih
    rw [show (pre ++ [0x05, filler.length] ++ filler) ++ (R ++ post) =
      pre ++ ([0x05, filler.length] ++ (filler ++ (R ++ post)))
      from by simp] at hih
    exact ⟨_, _, parseMoppF_step_cont _ f pre.length off 0x05
      (2 + filler.length) off _ ids2 tris2 hr0
      (decodeInstr_jump8 _ pre.length off filler.length hr1) hih⟩
  | jump16 filler rest ih =>
    intro fuel pre post off hfuel
    simp only [moppProgSteps] at hfuel
    obtain ⟨f, rfl⟩ : ∃ f, fuel = f + 1 := ⟨fuel - 1, by omega⟩
    simp only [encodeMoppProg]
    obtain ⟨R, hR⟩ : ∃ l, l = encodeMoppProg rest := ⟨_, rfl⟩
    rw [← hR]
    have hassoc : ([0x06, filler.length / 256, filler.length % 256] ++ filler
        ++ R) ++ post =
        [0x06, filler.length / 256, filler.length % 256] ++
          (filler ++ (R ++ post)) := by
      simp [List.append_assoc]
    rw [hassoc]
    have hr0 : (pre ++ ([0x06, filler.length / 256, filler.length % 256] ++
        (filler ++ (R ++ post))))[pre.length]? = some 0x06 := by
      rw [getElem?_append_len0]; simp
    have hr1 : (pre ++ ([0x06, filler.length / 256, filler.length % 256] ++
        (filler ++ (R ++ post))))[pre.length + 1]? =
        some (filler.length / 256) := by
      rw [getElem?_append_len]; simp
    have hr2 : (pre ++ ([0x06, filler.length / 256, filler.length % 256] ++
        (filler ++ (R ++ post))))[pre.length + 2]? =
        some (filler.length % 256) := by
      rw [getElem?_append_len]; simp
    have hdec := decodeInstr_jump16 _ pre.length off (filler.length / 256)
      (filler.length % 256) hr1 hr2
    rw [show (3 : Nat) + filler.length / 256 * 256 + filler.length % 256 =
      3 + filler.length from by omega] at hdec
    obtain ⟨ids2, tris2, hih⟩ := ih f
      (pre ++ [0x06, filler.length / 256, filler.length % 256] ++ filler)
      post off (by omega)
    rw [← hR] at hih
    rw [show (pre ++ [0x06, filler.length / 256, filler.length % 256] ++
      filler).length = pre.length + (3 + filler.length) from by
        simp only [List.length_append, List.length_cons, List.length_nil]
        omega] at hih
    rw [show (pre ++ [0x06, filler.length / 256, filler.length % 256] ++
      filler) ++ (R ++ post) =
      pre ++ ([0x06, filler.length / 256, filler.length % 256] ++
        (filler ++ (R ++ post))) from by simp] at hih
    exact ⟨_, _, parseMoppF_step_cont _ f pre.length off 0x06
      (3 + filler.length) off _ ids2 tris2 hr0 hdec hih⟩
  | bound c b1 b2 rest ih =>
    intro fuel pre post off hfuel
    simp only [moppProgSteps] at hfuel
    obtain ⟨f, rfl⟩ : ∃ f, fuel = f + 1 := ⟨fuel - 1, by omega⟩
    simp only [encodeMoppProg]
    obtain ⟨R, hR⟩ : ∃ l, l = encodeMoppProg rest := ⟨_, rfl⟩
    rw [← hR]
    have hassoc : ([0x26 + c.val, b1, b2] ++ R) ++ post =
        [0x26 + c.val, b1, b2] ++ (R ++ post) := by
      simp [List.append_assoc]
    rw [hassoc]
    have hr0 : (pre ++ ([0x26 + c.val, b1, b2] ++ (R ++ post)))[pre.length]? =
        some (0x26 + c.val) := by
      rw [getElem?_append_len0]; simp
    have hr1 : (pre ++ ([0x26 + c.val, b1, b2] ++
        (R ++ post)))[pre.length + 1]? = some b1 := by
      rw [getElem?_append_len]; simp
    have hr2 : (pre ++ ([0x26 + c.val, b1, b2] ++
        (R ++ post)))[pre.length + 2]? = some b2 := by
      rw [getElem?_append_len]; simp
    have hc : 0x26 + c.val = 0x26 ∨ 0x26 + c.val = 0x27 ∨
        0x26 + c.val = 0x28 := by
      have := c.isLt
      omega
    obtain ⟨ids2, tris2, hih⟩ := ih f (pre ++ [0x26 + c.val, b1, b2]) post off
      (by omega)
    rw [← hR] at hih
    rw [show (pre ++ [0x26 + c.val, b1, b2]).length = pre.length + 3
      from by simp] at hih
    rw [show (pre ++ [0x26 + c.val, b1, b2]) ++ (R ++ post) =
      pre ++ ([0x26 + c.val, b1, b2] ++ (R ++ post)) from by simp] at hih
    exact ⟨_, _, parseMoppF_step_cont _ f pre.length off (0x26 + c.val) 3 off
      _ ids2 tris2 hr0
      (decodeInstr_bound_family _ pre.length off (0x26 + c.val) b1 b2 hc
        hr1 hr2) hih⟩
  | bound4 c b1 b2 b3 rest ih =>
    intro fuel pre post off hfuel
    simp only [moppProgSteps] at hfuel
    obtain ⟨f, rfl⟩ : ∃ f, fuel = f + 1 := ⟨fuel - 1, by omega⟩
    simp only [encodeMoppProg]
    obtain ⟨R, hR⟩ : ∃ l, l = encodeMoppProg rest := ⟨_, rfl⟩
    rw [← hR]
    have hassoc : ([0x01 + c.val, b1, b2, b3] ++ R) ++ post =
        [0x01 + c.val, b1, b2, b3] ++ (R ++ post) := by
      simp [List.append_assoc]
    rw [hassoc]
    have hr0 : (pre ++ ([0x01 + c.val, b1, b2, b3] ++
        (R ++ post)))[pre.length]? = some (0x01 + c.val) := by
      rw [getElem?_append_len0]; simp
    have hr1 : (pre ++ ([0x01 + c.val, b1, b2, b3] ++
        (R ++ post)))[pre.length + 1]? = some b1 := by
      rw [getElem?_append_len]; simp
    have hr2 : (pre ++ ([0x01 + c.val, b1, b2, b3] ++
        (R ++ post)))[pre.length + 2]? = some b2 := by
      rw [getElem?_append_len]; simp
    have hr3 : (pre ++ ([0x01 + c.val, b1, b2, b3] ++
        (R ++ post)))[pre.length + 3]? = some b3 := by
      rw [getElem?_append_len]; simp
    have hc : 0x01 + c.val = 0x01 ∨ 0x01 + c.val = 0x02 ∨
        0x01 + c.val = 0x03 ∨ 0x01 + c.val = 0x04 := by
      have := c.isLt
      omega
    obtain ⟨ids2, tris2, hih⟩ := ih f (pre ++ [0x01 + c.val, b1, b2, b3]) post
      off (by omega)
    rw [← hR] at hih
    rw [show (pre ++ [0x01 + c.val, b1, b2, b3]).length = pre.length + 4
      from by simp] at hih
    rw [show (pre ++ [0x01 + c.val, b1, b2, b3]) ++ (R ++ post) =
      pre ++ ([0x01 + c.val, b1, b2, b3] ++ (R ++ post)) from by simp] at hih
    exact ⟨_, _, parseMoppF_step_cont _ f pre.length off (0x01 + c.val) 4 off
      _ ids2 tris2 hr0
      (decodeInstr_bound4_family _ pre.length off (0x01 + c.val) b1 b2 b3 hc
        hr1 hr2 hr3) hih⟩

theorem moppProgSteps_le_length (p : MoppProg) :
    moppProgSteps p ≤ (encodeMoppProg p).length := by
  induction p <;> simp_all [moppProgSteps, encodeMoppProg] <;> omega

/-- C5: for every byte buffer and start offset, when the decoder dispatches on
a byte outside the recognized opcode set it fails hard with a `ValueError`
carrying the offending offset and opcode (this covers every position the
decoder reaches, since every reached position is the start of a recursive
call); and decoding never raises on a buffer laid out from recognized opcode
forms only (`MoppProg`, which includes branch opcodes nested to any depth,
in particular depth ≥ 3 — see the witness). -/
theorem mopp_decode_errors :
    (∀ (mopp : List Nat) (i toffset code : Nat), mopp[i]? = some code →
      recognizedOpcode code = false →
      parseMopp mopp i toffset = .error (.unknownOpcode i code)) ∧
    (∀ (p : MoppProg) (off : Nat),
      (parseMopp (encodeMoppProg p) 0 off).isOk = true) := by
  constructor
  · intro mopp i toffset code hread hcode
    have hib : i < mopp.length := (List.getElem?_eq_some_iff.mp hread).1
    obtain ⟨f, hf⟩ : ∃ f, mopp.length = f + 1 := ⟨mopp.length - 1, by omega⟩
    rw [show parseMopp mopp i toffset = parseMoppF mopp mopp.length i toffset
      from rfl, hf]
    simp only [parseMoppF, hread, decodeInstr_unknown mopp i toffset code hcode]
  · intro p off
    obtain ⟨ids, tris, h⟩ := encodeMoppProg_parse p (encodeMoppProg p).length
      [] [] off (moppProgSteps_le_length p)
    rw [List.nil_append, List.append_nil] at h
    rw [show parseMopp (encodeMoppProg p) 0 off =
      parseMoppF (encodeMoppProg p) (encodeMoppProg p).length 0 off from rfl]
    rw [show ([] : List Nat).length = 0 from rfl] at h
    rw [h]
    rfl

theorem mopp_decode_errors_witness :
    (([0x60, 0, 0] : List Nat)[0]? = some 0x60 ∧
      recognizedOpcode 0x60 = false) ∧
    parseMopp [0x60, 0, 0] 0 0 = .error (.unknownOpcode 0 0x60) ∧
    moppProgDepth (MoppProg.branch2 0 1 2
      (.branch1 0 3 (.branchShort 0 4 5 (.leafCompact 0) (.leafByte 7))
        (.leafShort 1 2))
      (.incr8 32 (.leafCompact 5))) = 3 ∧
    (parseMopp (encodeMoppProg (MoppProg.branch2 0 1 2
      (.branch1 0 3 (.branchShort 0 4 5 (.leafCompact 0) (.leafByte 7))
        (.leafShort 1 2))
      (.incr8 32 (.leafCompact 5)))) 0 0).isOk = true :=
  ⟨⟨by decide, by decide⟩,
   mopp_decode_errors.1 [0x60, 0, 0] 0 0 0x60 (by decide) (by decide),
   by decide,
   mopp_decode_errors.2 (MoppProg.branch2 0 1 2
      (.branch1 0 3 (.branchShort 0 4 5 (.leafCompact 0) (.leafByte 7))
        (.leafShort 1 2))
      (.incr8 32 (.leafCompact 5))) 0⟩

/-! ## C9: quantization validation of the MOPP encoder -/

theorem le_qmax (a : ℚ) (l : List ℚ) : a ≤ qmax a l := by
  induction l generalizing a with
  | nil => exact le_refl a
  | cons b t ih =>
    calc a ≤ max a b := le_max_left a b
    _ ≤ qmax (max a b) t := ih (max a b)

theorem qmin_le (a : ℚ) (l : List ℚ) : qmin a l ≤ a := by
  induction l generalizing a with
  | nil => exact le_refl a
  | cons b t ih =>
    calc qmin (min a b) t ≤ min a b := ih (min a b)
    _ ≤ a := min_le_left a b

theorem qmin_le_qmax (a : ℚ) (l : List ℚ) : qmin a l ≤ qmax a l :=
  le_trans (qmin_le a l) (le_qmax a l)

/-- Per-axis bound: with origin `min - 0.1` and the shared scale computed from
the maximal extent `M`, the quantized per-axis maximum lands in `[0, 255]`. -/
theorem quantCoord_valid_bounds (mn mx M : ℚ) (hle : mn ≤ mx)
    (hEM : mx - mn ≤ M) (hM0 : 0 ≤ M) :
    0 ≤ quantCoord mx (mn - 1/10) ((256 * 256 * 254) / (1/5 + M)) ∧
    quantCoord mx (mn - 1/10) ((256 * 256 * 254) / (1/5 + M)) ≤ 255 := by
  unfold quantCoord
  have hden : (0 : ℚ) < 1/5 + M := by linarith
  have hq : (256 * 256 : ℚ) / ((256 * 256 * 254) / (1/5 + M)) =
      (1/5 + M) / 254 := by
    rw [div_div_eq_mul_div]
    rw [div_eq_div_iff (by norm_num) (by norm_num)]
    ring
  rw [hq]
  have hnum : mx + 1/10 - (mn - 1/10) = (mx - mn) + 1/5 := by ring
  rw [hnum]
  have hdenq : (0 : ℚ) < (1/5 + M) / 254 := div_pos hden (by norm_num)
  have hvpos : 0 < ((mx - mn) + 1/5) / ((1/5 + M) / 254) :=
    div_pos (by linarith) hdenq
  have hvle : ((mx - mn) + 1/5) / ((1/5 + M) / 254) ≤ 254 := by
    rw [div_le_iff hdenq]
    have h254 : (254 : ℚ) * ((1/5 + M) / 254) = 1/5 + M := by
      field_simp
      ring
    rw [h254]
    linarith
  constructor
  · exact Int.ceil_nonneg (le_of_lt hvpos)
  · have hc254 : (⌈((mx - mn) + 1/5) / ((1/5 + M) / 254)⌉ : ℤ) ≤ 254 := by
      apply Int.ceil_le.mpr
      push_cast
      exact hvle
    omega

/-- C9 counterexample: `updateMopp` validates only the quantization of the
per-axis maxima.  With vertices at x = 0 and x = 10, origin x = 5 and scale
65536, vertex 0 quantizes to -4 on the x axis (outside [0, 255]), yet the
validation succeeds because the per-axis maxima all land in range: no
`ValueError` is raised, contradicting the claim that decode rejects every
state under which some vertex quantizes outside [0, 255]. -/
theorem mopp_quant_counterexample :
    quantCoord 0 (5 : ℚ) 65536 < 0 ∧
    (MVec.mk 0 0 0).x = (0 : ℚ) ∧
    updateMoppBounds ⟨0, 0, 0⟩ [⟨10, 0, 0⟩] ⟨5, 0, 0⟩ 65536 = .ok (6, 1, 1) := by
  have e1 : quantCoord 10 5 65536 = 6 := by
    unfold quantCoord
    rw [show ((10 : ℚ) + 1/10 - 5) / (256 * 256 / 65536) = 51/10 from by
      norm_num]
    rw [Int.ceil_eq_iff]
    norm_num
  have e2 : quantCoord 0 0 65536 = 1 := by
    unfold quantCoord
    rw [show ((0 : ℚ) + 1/10 - 0) / (256 * 256 / 65536) = 1/10 from by
      norm_num]
    rw [Int.ceil_eq_iff]
    norm_num
  refine ⟨?_, rfl, ?_⟩
  · unfold quantCoord
    rw [show ((0 : ℚ) + 1/10 - 5) / (256 * 256 / 65536) = -(49/10) from by
      norm_num]
    rw [show (⌈-(49/10 : ℚ)⌉ : ℤ) = -4 from by
      rw [Int.ceil_eq_iff]
      norm_num]
    norm_num
  · unfold updateMoppBounds
    rw [show qmax (MVec.mk 0 0 0).x
        (([(⟨10, 0, 0⟩ : MVec)]).map (fun v => v.x)) = 10 from by
      simp [qmax]]
    rw [show qmax (MVec.mk 0 0 0).y
        (([(⟨10, 0, 0⟩ : MVec)]).map (fun v => v.y)) = 0 from by
      simp [qmax]]
    rw [show qmax (MVec.mk 0 0 0).z
        (([(⟨10, 0, 0⟩ : MVec)]).map (fun v => v.z)) = 0 from by
      simp [qmax]]
    rw [show (MVec.mk 5 0 0).x = (5 : ℚ) from rfl,
      show (MVec.mk 5 0 0).y = (0 : ℚ) from rfl,
      show (MVec.mk 5 0 0).z = (0 : ℚ) from rfl]
    rw [e1, e2]
    norm_num

/-- C9 (amended): the encoder rejects exactly those origin/scale states under
which a per-axis **maximum** quantizes outside [0, 255] (other vertices are
not checked — see the counterexample), and with the origin and scale computed
by `updateOriginScale` (origin = per-axis minimum minus 0.1, scale =
256*256*254 / (0.2 + max extent)) no such failure occurs, for every nonempty
vertex list. -/
theorem mopp_quant_amended (v : MVec) (vs : List MVec) :
    (∀ (origin : MVec) (scale : ℚ),
      (∃ e, updateMoppBounds v vs origin scale = .error e) ↔
        (quantCoord (qmax v.x (vs.map (·.x))) origin.x scale < 0 ∨
         quantCoord (qmax v.y (vs.map (·.y))) origin.y scale < 0 ∨
         quantCoord (qmax v.z (vs.map (·.z))) origin.z scale < 0 ∨
         255 < quantCoord (qmax v.x (vs.map (·.x))) origin.x scale ∨
         255 < quantCoord (qmax v.y (vs.map (·.y))) origin.y scale ∨
         255 < quantCoord (qmax v.z (vs.map (·.z))) origin.z scale)) ∧
    (∃ m, updateMoppBounds v vs (updateOriginScale v vs).1
      (updateOriginScale v vs).2 = .ok m) := by
  constructor
  · intro origin scale
    constructor
    · rintro ⟨e, he⟩
      by_contra hc
      push_neg at hc
      obtain ⟨c1, c2, c3, c4, c5, c6⟩ := hc
      unfold updateMoppBounds at he
      rw [if_neg (by omega), if_neg (by omega)] at he
      cases he
    · intro hr
      unfold updateMoppBounds
      by_cases h1 : (quantCoord (qmax v.x (vs.map (·.x))) origin.x scale < 0 ∨
          quantCoord (qmax v.y (vs.map (·.y))) origin.y scale < 0 ∨
          quantCoord (qmax v.z (vs.map (·.z))) origin.z scale < 0)
      · rw [if_pos h1]
        exact ⟨_, rfl⟩
      · rw [if_neg h1, if_pos (by omega)]
        exact ⟨_, rfl⟩
  · set mnx := qmin v.x (vs.map (·.x)) with hmnx
    set mxx := qmax v.x (vs.map (·.x)) with hmxx
    set mny := qmin v.y (vs.map (·.y)) with hmny
    set mxy := qmax v.y (vs.map (·.y)) with hmxy
    set mnz := qmin v.z (vs.map (·.z)) with hmnz
    set mxz := qmax v.z (vs.map (·.z)) with hmxz
    set M := qmax (mxx - mnx) [mxy - mny, mxz - mnz] with hM
    have hM_eq : M = max (max (mxx - mnx) (mxy - mny)) (mxz - mnz) := by
      rw [hM]
      simp [qmax]
    have hxle : mnx ≤ mxx := by
      rw [hmnx, hmxx]
      exact qmin_le_qmax _ _
    have hyle : mny ≤ mxy := by
      rw [hmny, hmxy]
      exact qmin_le_qmax _ _
    have hzle : mnz ≤ mxz := by
      rw [hmnz, hmxz]
      exact qmin_le_qmax _ _
    have hx : mxx - mnx ≤ M := by
      rw [hM_eq]
      exact le_trans (le_max_left _ _) (le_max_left _ _)
    have hy : mxy - mny ≤ M := by
      rw [hM_eq]
      exact le_trans (le_max_right _ _) (le_max_left _ _)
    have hz : mxz - mnz ≤ M := by
      rw [hM_eq]
      exact le_max_right _ _
    have hM0 : 0 ≤ M := le_trans (by linarith) hx
    have hbx := quantCoord_valid_bounds mnx mxx M hxle hx hM0
    have hby := quantCoord_valid_bounds mny mxy M hyle hy hM0
    have hbz := quantCoord_valid_bounds mnz mxz M hzle hz hM0
    have ho1 : (updateOriginScale v vs).1 =
        ⟨mnx - 1/10, mny - 1/10, mnz - 1/10⟩ := rfl
    have ho2 : (updateOriginScale v vs).2 = (256 * 256 * 254) / (1/5 + M) :=
      rfl
    rw [ho1, ho2]
    unfold updateMoppBounds
    dsimp only
    rw [← hmxx, ← hmxy, ← hmxz]
    rw [if_neg (by omega), if_neg (by omega)]
    exact ⟨_, rfl⟩

theorem mopp_quant_amended_witness :
    ∃ m, updateMoppBounds ⟨0, 0, 0⟩ [⟨10, 0, 0⟩]
      (updateOriginScale ⟨0, 0, 0⟩ [⟨10, 0, 0⟩]).1
      (updateOriginScale ⟨0, 0, 0⟩ [⟨10, 0, 0⟩]).2 = .ok m :=
  (mopp_quant_amended ⟨0, 0, 0⟩ [⟨10, 0, 0⟩]).2
